import Mathlib

/-!
Verification development for the microformats2 HTML parser.

The development shallowly embeds the parser core: the DOM node model, the
element helpers, the value extractors, the backcompat translator tables, and
the recursive walker, following the Go sources statement by statement.
External collaborators (the net/url resolver and the HTML serialiser from
golang.org/x/net/html) are modelled explicitly; each such model is marked in
its doc comment.  Go code that mutates state through pointers is translated
into explicit state passing; where the Go code would dereference a nil
pointer (a runtime panic), the embedding returns `none`.
-/

namespace MF2

/-! ## String utilities mirroring the Go strings package -/

/-- Whitespace test used for TrimSpace, Fields and class splitting.  Models
Go unicode.IsSpace restricted to the ASCII range (the parser only ever feeds
it HTML attribute text; non-ASCII space code points are not modelled). -/
def isSpaceChar (c : Char) : Bool :=
  c == ' ' || c == '\t' || c == '\n' || c == '\r' || c == '\x0b' || c == '\x0c'

/-- Drops leading whitespace characters from a character list. -/
def dropLeadingSpace : List Char → List Char
  | [] => []
  | c :: cs => if isSpaceChar c then dropLeadingSpace cs else c :: cs

/-- Model of strings.TrimSpace: removes leading and trailing whitespace. -/
def trimSpace (s : String) : String :=
  ⟨(dropLeadingSpace (dropLeadingSpace s.data).reverse).reverse⟩

/-- Accumulator loop for `fields`. -/
def fieldsAux : List Char → List Char → List String
  | acc, [] => if acc.isEmpty then [] else [⟨acc.reverse⟩]
  | acc, c :: cs =>
    if isSpaceChar c then
      if acc.isEmpty then fieldsAux [] cs else ⟨acc.reverse⟩ :: fieldsAux [] cs
    else fieldsAux (c :: acc) cs

/-- Model of strings.Fields: splits around runs of whitespace, no empties. -/
def fields (s : String) : List String := fieldsAux [] s.data

/-- Accumulator loop for `splitDash`. -/
def splitDashAux : List Char → List Char → List String
  | acc, [] => [⟨acc.reverse⟩]
  | acc, c :: cs =>
    if c == '-' then ⟨acc.reverse⟩ :: splitDashAux [] cs
    else splitDashAux (c :: acc) cs

/-- Splits a string on every dash, keeping empty segments
(strings.Split(s, "-")). -/
def splitDash (s : String) : List String := splitDashAux [] s.data

/-- Accumulator loop for `splitOnceDash`. -/
def splitOnceDashAux : List Char → List Char → String × String
  | acc, [] => (⟨acc.reverse⟩, "")
  | acc, c :: cs =>
    if c == '-' then (⟨acc.reverse⟩, ⟨cs⟩) else splitOnceDashAux (c :: acc) cs

/-- Model of strings.SplitN(s, "-", 2): the part before the first dash and
the remainder.  The Go call sites index both parts; they are only reached
for class names that contain a dash, so the no-dash fallback (s, "") is
unreachable there. -/
def splitOnceDash (s : String) : String × String := splitOnceDashAux [] s.data

/-- Whether `p` is a prefix of `s` (character lists). -/
def isPrefixList : List Char → List Char → Bool
  | [], _ => true
  | _ :: _, [] => false
  | p :: ps, c :: cs => p == c && isPrefixList ps cs

/-- Fuel-indexed loop for `replaceAll`; the fuel is the length of the
subject, and every step consumes at least one character. -/
def replaceAllAux (pat rep : List Char) : Nat → List Char → List Char
  | 0, s => s
  | _ + 1, [] => []
  | fuel + 1, c :: cs =>
    if isPrefixList pat (c :: cs) then
      rep ++ replaceAllAux pat rep fuel (List.drop (pat.length - 1) cs)
    else c :: replaceAllAux pat rep fuel cs

/-- Model of strings.ReplaceAll: leftmost, non-overlapping replacement of
every occurrence.  The parser only calls it with non-empty patterns, so the
empty-pattern case (Go inserts between characters) is mapped to identity. -/
def replaceAll (s pat rep : String) : String :=
  if pat.isEmpty then s else ⟨replaceAllAux pat.data rep.data s.data.length s.data⟩

/-- ASCII lower-casing of one character. -/
def toLowerChar (c : Char) : Char :=
  if 'A' ≤ c && c ≤ 'Z' then Char.ofNat (c.toNat + 32) else c

/-- Model of strings.EqualFold restricted to ASCII folding, which covers the
attribute names the parser compares. -/
def eqFold (a b : String) : Bool :=
  a.data.map toLowerChar == b.data.map toLowerChar

/-- Byte-wise (code point) comparison of character lists, the order used by
Go sort.Strings on UTF-8 strings. -/
def charListLe : List Char → List Char → Bool
  | [], _ => true
  | _ :: _, [] => false
  | a :: as, b :: bs =>
    if a.toNat < b.toNat then true
    else if b.toNat < a.toNat then false
    else charListLe as bs

/-- String comparison mirroring Go string ordering. -/
def strLe (a b : String) : Bool := charListLe a.data b.data

/-- Inserts a string into a sorted list, preserving sortedness. -/
def insertStr (s : String) : List String → List String
  | [] => [s]
  | t :: ts => if strLe s t then s :: t :: ts else t :: insertStr s ts

/-- Model of sort.Strings (ascending; equal strings are indistinguishable,
so stability is irrelevant). -/
def sortStrings (l : List String) : List String := l.foldr insertStr []

/-- Boolean sortedness of a string list under `strLe`. -/
def sortedLe : List String → Bool
  | [] => true
  | [_] => true
  | a :: b :: t => strLe a b && sortedLe (b :: t)

/-! ## Class-name matchers

The parser recognises class names with two anchored regular expressions:

  rootClassNames     = ^h-([a-z0-9]+-)?[a-z]+(-[a-z]+)*$
  propertyClassNames = ^(p|u|dt|e)-([a-z0-9]+-)?[a-z]+(-[a-z]+)*$

Both are decided here by splitting the part after the prefix on dashes: the
match succeeds iff all segments are non-empty, every segment after the first
is lower-case alphabetic, and the first segment is lower-case alphabetic, or
lower-case alphanumeric when at least one more segment follows (so that the
optional `[a-z0-9]+-` group has a mandatory `[a-z]+` segment after it). -/

/-- Lower-case ASCII letter test. -/
def isLowerAlphaChar (c : Char) : Bool := 'a' ≤ c && c ≤ 'z'

/-- Lower-case ASCII letter-or-digit test. -/
def isLowerAlnumChar (c : Char) : Bool :=
  isLowerAlphaChar c || ('0' ≤ c && c ≤ '9')

/-- Non-empty and entirely lower-case alphabetic. -/
def allLowerAlpha (s : String) : Bool := !s.isEmpty && s.data.all isLowerAlphaChar

/-- Non-empty and entirely lower-case alphanumeric. -/
def allLowerAlnum (s : String) : Bool := !s.isEmpty && s.data.all isLowerAlnumChar

/-- Decides `([a-z0-9]+-)?[a-z]+(-[a-z]+)*` against a whole string. -/
def classSuffixOk (rest : String) : Bool :=
  match splitDash rest with
  | [] => false
  | [s] => allLowerAlpha s
  | s0 :: srest => (allLowerAlpha s0 || allLowerAlnum s0) && srest.all allLowerAlpha

/-- Decides the anchored rootClassNames pattern. -/
def rootClassName (s : String) : Bool :=
  isPrefixList ['h', '-'] s.data && classSuffixOk ⟨s.data.drop 2⟩

/-- Decides the anchored propertyClassNames pattern.  The prefix is the part
before the first dash, exactly as the walker later recovers it with
strings.SplitN. -/
def propertyClassName (s : String) : Bool :=
  let pr := splitOnceDash s
  (pr.1 == "p" || pr.1 == "u" || pr.1 == "dt" || pr.1 == "e")
    && s.data.contains '-' && classSuffixOk pr.2

/-! ## Model of the external net/url collaborator

URL parsing and reference resolution are out of scope for the core (the
specification treats them as external collaborators), so they are modelled
here: a URL is its scheme plus the remaining text, url.Parse extracts a
valid scheme and rejects control characters, colons in the first path
segment of a schemeless URL, and invalid percent escapes, and reference
resolution keeps an absolute reference and otherwise merges against the
base, RFC-3986 style in a simplified form. -/

structure URL where
  scheme : String
  rest : String
deriving DecidableEq, Repr

/-- ASCII digit test. -/
def isDigitChar (c : Char) : Bool := '0' ≤ c && c ≤ '9'

/-- ASCII letter test. -/
def isAlphaChar (c : Char) : Bool :=
  isLowerAlphaChar c || ('A' ≤ c && c ≤ 'Z')

/-- Hexadecimal digit test. -/
def isHexChar (c : Char) : Bool :=
  isDigitChar c || ('a' ≤ c && c ≤ 'f') || ('A' ≤ c && c ≤ 'F')

/-- Valid URL scheme text: a letter followed by letters, digits, plus,
dash or dot. -/
def isSchemeStr : List Char → Bool
  | [] => false
  | c :: cs =>
    isAlphaChar c
      && cs.all (fun d => isAlphaChar d || isDigitChar d || d == '+' || d == '-' || d == '.')

/-- Splits a character list at the first colon, if any. -/
def splitColonAux : List Char → List Char → Option (List Char × List Char)
  | _, [] => none
  | acc, c :: cs =>
    if c == ':' then some (acc.reverse, cs) else splitColonAux (c :: acc) cs

/-- Control-character test (Go url.Parse rejects these). -/
def hasCtl (s : String) : Bool :=
  s.data.any (fun c => c.toNat < 32 || c.toNat == 127)

/-- Percent-escape validity (Go url.Parse rejects bad escapes). -/
def validPct : List Char → Bool
  | [] => true
  | c :: cs =>
    if c == '%' then
      match cs with
      | a :: b :: rest => isHexChar a && isHexChar b && validPct rest
      | _ => false
    else validPct cs

/-- Model of url.Parse reduced to what the parser core observes: the
extracted scheme and the error cases listed above. -/
def urlParse (s : String) : Option URL :=
  if hasCtl s || !validPct s.data then none
  else
    match splitColonAux [] s.data with
    | none => some ⟨"", s⟩
    | some (before, after) =>
      if isSchemeStr before then some ⟨⟨before.map toLowerChar⟩, ⟨after⟩⟩
      else if before.contains '/' then some ⟨"", s⟩
      else none

/-- Prints a URL back to text. -/
def URL.toText (u : URL) : String :=
  if u.scheme == "" then u.rest else u.scheme ++ ":" ++ u.rest

/-- Authority (`//host`) part of a URL remainder, or "" if it has none. -/
def hostPart (rest : String) : String :=
  if isPrefixList ['/', '/'] rest.data then
    ⟨'/' :: '/' :: ((rest.data.drop 2).takeWhile (fun c => c ≠ '/' && c ≠ '?' && c ≠ '#'))⟩
  else ""

/-- Directory part of a URL remainder: everything up to and including the
last slash, or "" when there is no slash. -/
def dirPart (rest : String) : String :=
  match rest.data.reverse.dropWhile (fun c => c ≠ '/') with
  | [] => ""
  | l => ⟨l.reverse⟩

/-- Simplified relative-reference merge against a base remainder. -/
def mergeRel (baseRest ref : String) : String :=
  if ref == "" then baseRest
  else if isPrefixList ['/', '/'] ref.data then ref
  else if isPrefixList ['/'] ref.data then hostPart baseRest ++ ref
  else dirPart baseRest ++ ref

/-- Model of (*url.URL).ResolveReference for a non-nil base: an absolute
reference wins, otherwise the reference is merged against the base. -/
def URL.resolveReference (base ref : URL) : URL :=
  if ref.scheme ≠ "" then ref else ⟨base.scheme, mergeRel base.rest ref.rest⟩

/-- The repository's expandURL: resolves r against base when base is set and
r parses; otherwise returns r unchanged. -/
def expandURL (r : String) (base : Option URL) : String :=
  match base with
  | none => r
  | some b =>
    match urlParse r with
    | none => r
    | some u => (URL.resolveReference b u).toText

/-- Path component of a URL in this model: the remainder with any authority
part removed and query and fragment stripped. -/
def urlPath (u : URL) : String :=
  let r := u.rest
  let afterHost : List Char :=
    if isPrefixList ['/', '/'] r.data then (r.data.drop 2).dropWhile (fun c => c ≠ '/' && c ≠ '?' && c ≠ '#')
    else r.data
  ⟨afterHost.takeWhile (fun c => c ≠ '?' && c ≠ '#')⟩

/-- Model of Go path.Base: last element of the path after removing trailing
slashes; "." for an empty path, "/" when everything is slashes. -/
def pathBase (p : String) : String :=
  if p == "" then "."
  else
    let noTrail := (p.data.reverse.dropWhile (fun c => c == '/')).reverse
    if noTrail.isEmpty then "/"
    else ⟨(noTrail.reverse.takeWhile (fun c => c ≠ '/')).reverse⟩

/-! ## The DOM node model

Mirrors the golang.org/x/net/html Node shape as consumed by the parser:
node type, atom (modelled as the lower-case tag name; text and document
nodes carry the empty atom), text data, attributes, and children.  The
sibling chain becomes a child list. -/

inductive NType where
  | element
  | text
  | document
  | comment
  | doctype
deriving DecidableEq, Repr

mutual
inductive Node where
  | mk (ntype : NType) (atomStr : String) (data : String)
       (attrs : List (String × String)) (children : NodeList)

inductive NodeList where
  | nil
  | cons (head : Node) (tail : NodeList)
end

deriving instance DecidableEq for Node
deriving instance Repr for Node

/-- Node type accessor. -/
def Node.ntype : Node → NType
  | .mk t _ _ _ _ => t

/-- Atom accessor. -/
def Node.atomStr : Node → String
  | .mk _ a _ _ _ => a

/-- Text-data accessor. -/
def Node.data : Node → String
  | .mk _ _ d _ _ => d

/-- Attribute-list accessor. -/
def Node.attrs : Node → List (String × String)
  | .mk _ _ _ a _ => a

/-- Child-list accessor. -/
def Node.children : Node → NodeList
  | .mk _ _ _ _ c => c

/-- Builds an element node from a tag name, attributes and children. -/
def elemN (tag : String) (attrs : List (String × String)) (kids : List Node) : Node :=
  Node.mk NType.element tag tag attrs (kids.foldr NodeList.cons NodeList.nil)

/-- Builds a text node. -/
def textN (s : String) : Node :=
  Node.mk NType.text "" s [] NodeList.nil

mutual
/-- Number of nodes in a tree (used only to pick a generous fuel). -/
def nodeCount : Node → Nat
  | .mk _ _ _ _ ch => 1 + nodeCountList ch

/-- Number of nodes in a forest. -/
def nodeCountList : NodeList → Nat
  | .nil => 0
  | .cons c rest => nodeCount c + nodeCountList rest
end

/-! ## Element helpers (getAttr, classes, atoms, only-child selection) -/

/-- Case-insensitive attribute lookup over an attribute list; the first
matching attribute wins (getAttrPtr). -/
def getAttrPtrList (name : String) : List (String × String) → Option String
  | [] => none
  | (k, v) :: rest => if eqFold k name then some v else getAttrPtrList name rest

/-- The repository's getAttrPtr on a non-nil node. -/
def getAttrPtr (n : Node) (name : String) : Option String :=
  getAttrPtrList name n.attrs

/-- The repository's getAttr: attribute value or "". -/
def getAttr (n : Node) (name : String) : String :=
  match getAttrPtr n name with
  | some v => v
  | none => ""

/-- The repository's hasAttr. -/
def hasAttr (n : Node) (name : String) : Bool := (getAttrPtr n name).isSome

/-- The repository's isAtom: compares the node's atom against a list of
atoms (variadic in Go).  Text and document nodes carry the empty atom and
never match the named atoms the parser asks about. -/
def isAtom (n : Node) (atoms : List String) : Bool :=
  atoms.any (fun a => a == n.atomStr)

/-- The repository's getClasses: the class attribute split into fields. -/
def getClasses (n : Node) : List String :=
  match getAttrPtr n "class" with
  | some c => fields c
  | none => []

/-- hasMatchingClass specialised to rootClassNames, its only use in the
walker's helpers. -/
def hasRootClass (n : Node) : Bool := (getClasses n).any rootClassName

/-- Loop of getOnlyChild: at most one element child, else none. -/
def getOnlyChildLoop (found : Option Node) : NodeList → Option Node
  | .nil => found
  | .cons c rest =>
    if c.ntype == NType.element then
      match found with
      | none => getOnlyChildLoop (some c) rest
      | some _ => none
    else getOnlyChildLoop found rest

/-- The repository's getOnlyChild. -/
def getOnlyChild (n : Node) : Option Node := getOnlyChildLoop none n.children

/-- Loop of getOnlyChildAtom. -/
def getOnlyChildAtomLoop (a : String) (found : Option Node) : NodeList → Option Node
  | .nil => found
  | .cons c rest =>
    if c.ntype == NType.element && c.atomStr == a then
      match found with
      | none => getOnlyChildAtomLoop a (some c) rest
      | some _ => none
    else getOnlyChildAtomLoop a found rest

/-- The repository's getOnlyChildAtom. -/
def getOnlyChildAtom (n : Node) (a : String) : Option Node :=
  getOnlyChildAtomLoop a none n.children

/-! ## Text content -/

/-- First-order stand-in for the imgFn function argument of getTextContent:
the parser only ever passes nil, imageAltValue, or the parser-bound
imageAltSrcValue. -/
inductive ImgFn where
  | noFn
  | altValue
  | altSrcValue (base : Option URL)
deriving DecidableEq, Repr

/-- Applies an ImgFn to an img node: imageAltValue returns the alt value,
imageAltSrcValue falls back from alt to the space-wrapped expanded src. -/
def imgFnApply : ImgFn → Node → String
  | .noFn, _ => ""
  | .altValue, n => getAttr n "alt"
  | .altSrcValue base, n =>
    match getAttrPtr n "alt" with
    | some v => v
    | none =>
      match getAttrPtr n "src" with
      | some v => " " ++ expandURL v base ++ " "
      | none => ""

mutual
/-- The repository's getTextContent: skips script, style and template
subtrees, routes img nodes through imgFn when one is given, returns text
data, and otherwise concatenates over children. -/
def getTextContent (imgFn : ImgFn) : Node → String
  | n@(.mk _ _ _ _ ch) =>
    if isAtom n ["script", "style", "template"] then ""
    else if isAtom n ["img"] && imgFn ≠ ImgFn.noFn then imgFnApply imgFn n
    else if n.ntype == NType.text then n.data
    else getTextContentList imgFn ch

/-- Children loop of getTextContent. -/
def getTextContentList (imgFn : ImgFn) : NodeList → String
  | .nil => ""
  | .cons c rest => getTextContent imgFn c ++ getTextContentList imgFn rest
end

/-! ## Microformat data model

Properties are a Go map from name to a slice of values; the embedding keeps
them as an insertion-ordered association list, which preserves lookup
semantics and value order (Go map iteration order is not observed by the
parser itself).  A property value is a string, a small string-keyed object
(Go map[string]string, kept in insertion order), or a nested microformat. -/

mutual
inductive PropValue where
  | str (s : String)
  | obj (kvs : List (String × String))
  | item (m : Microformat)

inductive PropValueList where
  | nil
  | cons (v : PropValue) (t : PropValueList)

inductive PropMap where
  | nil
  | cons (name : String) (vals : PropValueList) (rest : PropMap)

inductive Microformat where
  | mk (id : String) (value : String) (html : String) (type : List String)
       (properties : PropMap) (shape : String) (coords : String)
       (children : MFList)
       (hasNested : Bool) (hasP : Bool) (hasE : Bool) (hasU : Bool) (bc : Bool)

inductive MFList where
  | nil
  | cons (m : Microformat) (t : MFList)
end

deriving instance DecidableEq for PropValue
deriving instance DecidableEq for PropValueList
deriving instance DecidableEq for PropMap
deriving instance DecidableEq for MFList
deriving instance Repr for PropValue
deriving instance Repr for PropMap
deriving instance Repr for PropValueList
deriving instance Repr for MFList

/-- Accessor for the id field. -/
def Microformat.id : Microformat → String
  | .mk i _ _ _ _ _ _ _ _ _ _ _ _ => i

/-- Accessor for the embedded value field. -/
def Microformat.value : Microformat → String
  | .mk _ v _ _ _ _ _ _ _ _ _ _ _ => v

/-- Accessor for the embedded html field. -/
def Microformat.html : Microformat → String
  | .mk _ _ h _ _ _ _ _ _ _ _ _ _ => h

/-- Accessor for the type list. -/
def Microformat.type : Microformat → List String
  | .mk _ _ _ t _ _ _ _ _ _ _ _ _ => t

/-- Accessor for the property map. -/
def Microformat.properties : Microformat → PropMap
  | .mk _ _ _ _ p _ _ _ _ _ _ _ _ => p

/-- Accessor for the shape field. -/
def Microformat.shape : Microformat → String
  | .mk _ _ _ _ _ s _ _ _ _ _ _ _ => s

/-- Accessor for the coords field. -/
def Microformat.coords : Microformat → String
  | .mk _ _ _ _ _ _ c _ _ _ _ _ _ => c

/-- Accessor for the children list. -/
def Microformat.childrenL : Microformat → MFList
  | .mk _ _ _ _ _ _ _ ch _ _ _ _ _ => ch

/-- Accessor for the hasNestedMicroformats flag. -/
def Microformat.hasNested : Microformat → Bool
  | .mk _ _ _ _ _ _ _ _ n _ _ _ _ => n

/-- Accessor for the hasPProperties flag. -/
def Microformat.hasP : Microformat → Bool
  | .mk _ _ _ _ _ _ _ _ _ p _ _ _ => p

/-- Accessor for the hasEProperties flag. -/
def Microformat.hasE : Microformat → Bool
  | .mk _ _ _ _ _ _ _ _ _ _ e _ _ => e

/-- Accessor for the hasUProperties flag. -/
def Microformat.hasU : Microformat → Bool
  | .mk _ _ _ _ _ _ _ _ _ _ _ u _ => u

/-- Accessor for the backcompat flag. -/
def Microformat.bc : Microformat → Bool
  | .mk _ _ _ _ _ _ _ _ _ _ _ _ b => b

/-- Sets the hasNestedMicroformats flag. -/
def Microformat.setHasNested : Microformat → Microformat
  | .mk i v h t p s c ch _ hp he hu b => .mk i v h t p s c ch true hp he hu b

/-- Sets the hasPProperties flag. -/
def Microformat.setHasP : Microformat → Microformat
  | .mk i v h t p s c ch n _ he hu b => .mk i v h t p s c ch n true he hu b

/-- Sets the hasEProperties flag. -/
def Microformat.setHasE : Microformat → Microformat
  | .mk i v h t p s c ch n hp _ hu b => .mk i v h t p s c ch n hp true hu b

/-- Sets the hasUProperties flag. -/
def Microformat.setHasU : Microformat → Microformat
  | .mk i v h t p s c ch n hp he _ b => .mk i v h t p s c ch n hp he true b

/-- Replaces the property map. -/
def Microformat.withProperties (m : Microformat) (p : PropMap) : Microformat :=
  match m with
  | .mk i v h t _ s c ch n hp he hu b => .mk i v h t p s c ch n hp he hu b

/-- Appends a child microformat and raises the nested flag (the walker's
children-attachment branch). -/
def MFList.concat : MFList → Microformat → MFList
  | .nil, x => .cons x .nil
  | .cons m t, x => .cons m (MFList.concat t x)

/-- Appends a child microformat and raises the nested flag (the walker's
children-attachment branch). -/
def Microformat.attachChild (m : Microformat) (child : Microformat) : Microformat :=
  match m with
  | .mk i v h t p s c ch _ hp he hu b =>
    .mk i v h t p s c (MFList.concat ch child) true hp he hu b

/-- Appends at the end of a PropValueList. -/
def PropValueList.concat : PropValueList → PropValue → PropValueList
  | .nil, v => .cons v .nil
  | .cons h t, v => .cons h (PropValueList.concat t v)

/-- Looks a property name up in a PropMap. -/
def PropMap.find? : PropMap → String → Option PropValueList
  | .nil, _ => none
  | .cons n vals rest, name => if n == name then some vals else PropMap.find? rest name

/-- Whether the map has an entry for the name (the Go comma-ok test). -/
def PropMap.hasKey (m : PropMap) (name : String) : Bool := (m.find? name).isSome

/-- The Go statement Properties[name] = append(Properties[name], v): appends
to an existing entry or creates a singleton entry. -/
def PropMap.appendVal : PropMap → String → PropValue → PropMap
  | .nil, name, v => .cons name (.cons v .nil) .nil
  | .cons n vals rest, name, v =>
    if n == name then .cons n (vals.concat v) rest
    else .cons n vals (PropMap.appendVal rest name v)

/-- The repository's getFirstPropValue: the first value for prop when it is
a plain string. -/
def getFirstPropValue (m : Microformat) (prop : String) : Option String :=
  match m.properties.find? prop with
  | some (PropValueList.cons (PropValue.str s) _) => some s
  | _ => none

/-- The zero Microformat with the given type list and backcompat flag, as
allocated when the walker opens an item. -/
def newItem (ty : List String) (bcFlag : Bool) (idVal : String) : Microformat :=
  Microformat.mk idVal "" "" ty PropMap.nil "" "" MFList.nil false false false false bcFlag

/-! ## Implied property helpers (getImpliedName, getImpliedPhoto,
getImpliedURL), following the walker sources -/

/-- The switch on the node itself in getImpliedName. -/
def impliedNameOwn (n : Node) : Option String :=
  if isAtom n ["img", "area"] then getAttrPtr n "alt"
  else if isAtom n ["abbr"] then getAttrPtr n "title"
  else none

/-- The repository's getImpliedName: own alt/title, else the sole child's
(skipping root-classed children), else the sole grandchild's (same rule),
else text content with image-alt substitution; always trimmed. -/
def getImpliedName (node : Node) : String :=
  let name := impliedNameOwn node
  let name :=
    match name with
    | some v => some v
    | none =>
      match getOnlyChild node with
      | some sub => if !hasRootClass sub then impliedNameOwn sub else none
      | none => none
  let name :=
    match name with
    | some v => some v
    | none =>
      match getOnlyChild node with
      | some sub =>
        if !hasRootClass sub then
          match getOnlyChild sub with
          | some subsub => if !hasRootClass subsub then impliedNameOwn subsub else none
          | none => none
        else none
      | none => none
  let nameStr :=
    match name with
    | some v => v
    | none => getTextContent ImgFn.altValue node
  trimSpace nameStr

/-- The repository's getImpliedPhoto, returning (src, alt).  The alt value
travels alongside the optional photo exactly as in the source: the node's
own img case records alt even when src is missing, and the only-child img
cases record alt only together with a src. -/
def getImpliedPhoto (node : Node) (base : Option URL) : String × String :=
  let pa : Option String × String :=
    if isAtom node ["img"] then (getAttrPtr node "src", getAttr node "alt")
    else if isAtom node ["object"] then (getAttrPtr node "data", "")
    else (none, "")
  let pa :=
    if pa.1.isNone then
      match getOnlyChildAtom node "img" with
      | some sub =>
        if hasAttr sub "src" && !hasRootClass sub then
          (getAttrPtr sub "src", getAttr sub "alt")
        else pa
      | none => pa
    else pa
  let pa :=
    if pa.1.isNone then
      match getOnlyChildAtom node "object" with
      | some sub => if !hasRootClass sub then (getAttrPtr sub "data", pa.2) else pa
      | none => pa
    else pa
  let pa :=
    if pa.1.isNone then
      match getOnlyChild node with
      | some sub =>
        if !hasRootClass sub then
          match getOnlyChildAtom sub "img" with
          | some subsub =>
            if hasAttr subsub "src" && !hasRootClass subsub then
              (getAttrPtr subsub "src", getAttr subsub "alt")
            else pa
          | none => pa
        else pa
      | none => pa
    else pa
  let pa :=
    if pa.1.isNone then
      match getOnlyChild node with
      | some sub =>
        if !hasRootClass sub then
          match getOnlyChildAtom sub "object" with
          | some subsub =>
            if !hasRootClass subsub then (getAttrPtr subsub "data", pa.2) else pa
          | none => pa
        else pa
      | none => pa
    else pa
  match pa.1 with
  | none => ("", pa.2)
  | some p => (expandURL p base, pa.2)

/-- The repository's getImpliedURL: own href on a/area, else the sole
a/area child, else the sole a/area grandchild (skipping root-classed
nodes); resolved against the base. -/
def getImpliedURL (node : Node) (base : Option URL) : String :=
  let value : Option String :=
    if isAtom node ["a", "area"] then getAttrPtr node "href" else none
  let value :=
    match value with
    | some v => some v
    | none =>
      match getOnlyChildAtom node "a" with
      | some sub => if !hasRootClass sub then getAttrPtr sub "href" else none
      | none => none
  let value :=
    match value with
    | some v => some v
    | none =>
      match getOnlyChildAtom node "area" with
      | some sub => if !hasRootClass sub then getAttrPtr sub "href" else none
      | none => none
  let value :=
    match value with
    | some v => some v
    | none =>
      match getOnlyChild node with
      | some sub =>
        if !hasRootClass sub then
          match getOnlyChildAtom sub "a" with
          | some subsub => if !hasRootClass subsub then getAttrPtr subsub "href" else none
          | none => none
        else none
      | none => none
  let value :=
    match value with
    | some v => some v
    | none =>
      match getOnlyChild node with
      | some sub =>
        if !hasRootClass sub then
          match getOnlyChildAtom sub "area" with
          | some subsub => if !hasRootClass subsub then getAttrPtr subsub "href" else none
          | none => none
        else none
      | none => none
  match value with
  | none => ""
  | some v => expandURL v base

/-! ## Value-class pattern -/

/-- Value chosen for one `class="value"` child in parseValueClassPattern. -/
def valueChildValue (dt : Bool) (c : Node) : String :=
  if isAtom c ["img", "area"] && hasAttr c "alt" then getAttr c "alt"
  else if isAtom c ["data"] && hasAttr c "value" then getAttr c "value"
  else if isAtom c ["abbr"] && hasAttr c "title" then getAttr c "title"
  else if dt && isAtom c ["del", "ins", "time"] && hasAttr c "datetime" then
    getAttr c "datetime"
  else trimSpace (getTextContent ImgFn.noFn c)

/-- Children loop of parseValueClassPattern. -/
def pvcpList (dt : Bool) : NodeList → List String
  | .nil => []
  | .cons c rest =>
    let classes := getClasses c
    let valueTitleClass := classes.contains "value-title"
    let valueClass := classes.contains "value"
    let vals :=
      if valueTitleClass then [getAttr c "title"]
      else if valueClass then [valueChildValue dt c]
      else []
    vals ++ pvcpList dt rest

/-- The repository's parseValueClassPattern over the direct children. -/
def parseValueClassPattern (node : Node) (dt : Bool) : List String :=
  pvcpList dt node.children

/-- The repository's getValueClassPattern: concatenation of the collected
values, or none when there are none. -/
def getValueClassPattern (node : Node) : Option String :=
  let values := parseValueClassPattern node false
  if values.length > 0 then some (String.join values) else none

/-! ## Model of the external HTML serialiser (html.Render)

Serialisation is an external collaborator from golang.org/x/net/html.  The
model covers what the e-* extractor feeds it: element nodes are written as
a tag with escaped attributes, void elements end in a self-closing slash,
text is escaped, comments and doctypes are delimited; the raw-text special
cases (script, style and friends) are not modelled. -/

/-- The void elements the serialiser closes with a slash. -/
def voidElements : List String :=
  ["area", "base", "br", "col", "embed", "hr", "img", "input", "keygen",
   "link", "meta", "param", "source", "track", "wbr"]

/-- The escape set of the serialiser: ampersand, apostrophe, angle
brackets, quote and carriage return. -/
def escapeChar (c : Char) : List Char :=
  if c == '&' then "&amp;".data
  else if c == Char.ofNat 39 then "&#39;".data
  else if c == '<' then "&lt;".data
  else if c == '>' then "&gt;".data
  else if c == '"' then "&#34;".data
  else if c == '\r' then "&#13;".data
  else [c]

/-- Escapes text for serialisation. -/
def escapeHTML (s : String) : String := ⟨s.data.flatMap escapeChar⟩

/-- Serialises an attribute list. -/
def renderAttrs : List (String × String) → String
  | [] => ""
  | (k, v) :: rest => " " ++ k ++ "=\"" ++ escapeHTML v ++ "\"" ++ renderAttrs rest

mutual
/-- Serialises a node. -/
def render : Node → String
  | .mk t a d attrs ch =>
    match t with
    | .text => escapeHTML d
    | .comment => "<!--" ++ d ++ "-->"
    | .doctype => "<!DOCTYPE " ++ d ++ ">"
    | .document => renderList ch
    | .element =>
      "<" ++ a ++ renderAttrs attrs ++
        (if voidElements.contains a then "/>"
         else ">" ++ renderList ch ++ "</" ++ a ++ ">")

/-- Serialises a forest. -/
def renderList : NodeList → String
  | .nil => ""
  | .cons c rest => render c ++ renderList rest
end

/-! ## URL rewriting of subtrees (expandAttrURLs) -/

/-- The URL-bearing attributes collected for a node in expandAttrURLs, in
the order the source appends them. -/
def urlAttrsFor (n : Node) : List String :=
  (if isAtom n ["form"] then ["action"] else []) ++
  (if isAtom n ["blockquote", "del", "ins", "q"] then ["cite"] else []) ++
  (if isAtom n ["object"] then ["data"] else []) ++
  (if isAtom n ["button", "input"] then ["formaction"] else []) ++
  (if isAtom n ["a", "area", "base", "link"] then ["href"] else []) ++
  (if isAtom n ["a", "area"] then ["ping"] else []) ++
  (if isAtom n ["audio", "embed", "iframe", "img", "input", "script",
                "source", "track", "video"] then ["src"] else []) ++
  (if isAtom n ["video"] then ["poster"] else [])

/-- Writes through the first case-insensitively matching attribute, the
effect of assigning through the getAttrPtr pointer. -/
def setAttrList (name val : String) : List (String × String) → List (String × String)
  | [] => []
  | (k, v) :: rest =>
    if eqFold k name then (k, val) :: rest else (k, v) :: setAttrList name val rest

/-- Rewrites the URL-bearing attributes of one node to absolute URLs. -/
def expandAttrsOwn (base : Option URL) (n : Node) : List (String × String) :=
  (urlAttrsFor n).foldl
    (fun as a =>
      match getAttrPtrList a as with
      | some v => setAttrList a (expandURL v base) as
      | none => as)
    n.attrs

mutual
/-- The repository's expandAttrURLs as a functional rewrite: the Go code
updates the tree in place; the embedding returns the rewritten tree. -/
def expandAttrURLs (base : Option URL) : Node → Node
  | n@(.mk t a d _ ch) =>
    Node.mk t a d (expandAttrsOwn base n) (expandAttrURLsList base ch)

/-- Children loop of expandAttrURLs. -/
def expandAttrURLsList (base : Option URL) : NodeList → NodeList
  | .nil => .nil
  | .cons c rest => .cons (expandAttrURLs base c) (expandAttrURLsList base rest)
end

/-! ## Date/time assembly

The datetime implementation file is absent from the sources (only its tests
are present), so the fragment accumulator, getDateTimeValue and
implyEndDate are modelled from the specification. -/

/-- Non-empty all-digit test. -/
def allDigits (s : String) : Bool := !s.isEmpty && s.data.all isDigitChar

/-- Modelled from the spec: a date fragment is YYYY-MM-DD or the ordinal
YYYY-DDD form. -/
def looksLikeDate (s : String) : Bool :=
  match splitDash s with
  | [y, m, d] => y.length == 4 && allDigits y && m.length == 2 && allDigits m
      && d.length == 2 && allDigits d
  | [y, o] => y.length == 4 && allDigits y && o.length == 3 && allDigits o
  | _ => false

/-- Modelled from the spec: a time fragment is HH:MM with optional seconds
(am/pm tolerance is not modelled; no claim depends on it). -/
def looksLikeTime (s : String) : Bool :=
  match s.data.filter (fun c => c == ':') with
  | [_] | [_, _] =>
    s.data.all (fun c => isDigitChar c || c == ':')
      && (s.data.takeWhile isDigitChar).length ≤ 2
      && !s.isEmpty
  | _ => false

/-- Modelled from the spec: a timezone fragment is Z or a signed offset. -/
def looksLikeTZ (s : String) : Bool :=
  s == "Z" || s == "z" ||
    (match s.data with
     | c :: rest =>
       (c == '+' || c == '-') && rest ≠ []
         && rest.all (fun d => isDigitChar d || d == ':')
     | [] => false)

/-- Modelled from the spec: offsets are canonicalised by dropping the colon
(so -08:00 prints as -0800). -/
def normalizeTZ (s : String) : String := ⟨s.data.filter (fun c => c ≠ ':')⟩

/-- Modelled from the spec: the date/time accumulator with first-fragment-
wins flags for date, time and timezone. -/
structure DTAcc where
  d : String
  t : String
  tz : String
  hasDate : Bool
  hasTime : Bool
  hasTZ : Bool
deriving DecidableEq, Repr

/-- The empty accumulator. -/
def dtEmpty : DTAcc := ⟨"", "", "", false, false, false⟩

/-- Splits a time fragment into its digit-and-colon part and a trailing
timezone suffix. -/
def splitTimeTZ (s : String) : String × String :=
  let timePart := s.data.takeWhile (fun c => isDigitChar c || c == ':')
  (⟨timePart⟩, ⟨s.data.drop timePart.length⟩)

/-- Modelled from the spec: feeds one fragment to the accumulator; the
first fragment to set each field wins, unrecognised fragments are
discarded. -/
def dtFeed (acc : DTAcc) (frag : String) : DTAcc :=
  let f := trimSpace frag
  if looksLikeDate f then
    if acc.hasDate then acc else { acc with d := f, hasDate := true }
  else if looksLikeTZ f then
    if acc.hasTZ then acc else { acc with tz := normalizeTZ f, hasTZ := true }
  else
    let (tp, tzp) := splitTimeTZ f
    if looksLikeTime tp && (tzp == "" || looksLikeTZ tzp) then
      let acc := if acc.hasTime then acc else { acc with t := tp, hasTime := true }
      if tzp ≠ "" && !acc.hasTZ then { acc with tz := normalizeTZ tzp, hasTZ := true }
      else acc
    else acc

/-- Modelled from the spec: string output of the accumulator, omitting
parts never set. -/
def DTAcc.render (a : DTAcc) : String :=
  (if a.hasDate then a.d else "")
    ++ (if a.hasTime then (if a.hasDate then " " else "") ++ a.t
          ++ (if a.hasTZ then a.tz else "")
        else "")

/-- Modelled from the spec: getDateTimeValue runs the value-class pattern
in date-time mode and assembles the fragments; none when no value-class
children exist. -/
def getDateTimeValue (node : Node) : Option String :=
  let values := parseValueClassPattern node true
  if values.isEmpty then none
  else some ((values.foldl dtFeed dtEmpty).render)

/-- Leading YYYY-MM-DD prefix of a value, if it has one. -/
def datePartOf (s : String) : Option String :=
  let d : String := ⟨s.data.take 10⟩
  if looksLikeDate d then some d else none

/-- Whether a value carries a time but no leading date. -/
def timeNoDate (s : String) : Bool :=
  (datePartOf s).isNone && looksLikeTime (splitTimeTZ s).1

/-- First value in the list that starts with a date. -/
def firstDatedValue : PropValueList → Option String
  | .nil => none
  | .cons (PropValue.str s) rest =>
    match datePartOf s with
    | some d => some d
    | none => firstDatedValue rest
  | .cons _ rest => firstDatedValue rest

/-- Rewrites the end values, prefixing the start date onto time-only
values. -/
def fixEndVals (startDate : String) : PropValueList → PropValueList
  | .nil => .nil
  | .cons (PropValue.str s) rest =>
    .cons (PropValue.str (if timeNoDate s then startDate ++ " " ++ s else s))
      (fixEndVals startDate rest)
  | .cons v rest => .cons v (fixEndVals startDate rest)

/-- Replaces the value list of one existing key. -/
def PropMap.setVals : PropMap → String → PropValueList → PropMap
  | .nil, _, _ => .nil
  | .cons n vals rest, name, newVals =>
    if n == name then .cons n newVals rest
    else .cons n vals (PropMap.setVals rest name newVals)

/-- Modelled from the spec: implyEndDate substitutes the date of the first
dated start value into every end value that carries a time but no date;
items without both properties are unchanged. -/
def implyEndDate (m : Microformat) : Microformat :=
  match m.properties.find? "end", m.properties.find? "start" with
  | some endVals, some startVals =>
    match firstDatedValue startVals with
    | some d => m.withProperties (m.properties.setVals "end" (fixEndVals d endVals))
    | none => m
  | _, _ => m

/-! ## Backcompat translator (tables and functions from the sources) -/

/-- Association-list lookup. -/
def lookupAssoc (m : List (String × String)) (k : String) : Option String :=
  match m.find? (fun p => p.1 == k) with
  | some p => some p.2
  | none => none

/-- Nested association-list lookup (map of maps). -/
def lookupAssoc2 (m : List (String × List (String × String))) (k1 k2 : String) :
    Option String :=
  match m.find? (fun p => p.1 == k1) with
  | some p => lookupAssoc p.2 k2
  | none => none

/-- The v1 root-class translation map. -/
def backcompatRootMap : List (String × String) :=
  [("adr", "h-adr"), ("geo", "h-geo"), ("hentry", "h-entry"),
   ("hfeed", "h-feed"), ("hnews", "h-news"), ("hproduct", "h-product"),
   ("hrecipe", "h-recipe"), ("hresume", "h-resume"), ("hreview", "h-review"),
   ("hreview-aggregate", "h-review-aggregate"), ("vcard", "h-card"),
   ("vevent", "h-event")]

/-- The generic v1 property translation table.  It is defined in the
sources but never consulted by backcompatPropertyClasses there. -/
def backcompatPropertyMap : List (String × String) :=
  [("author", "p-author"), ("description", "p-description"),
   ("job-title", "p-job-title"), ("organization-name", "p-organization-name"),
   ("organization-unit", "p-organization-unit"), ("published", "dt-published"),
   ("summary", "p-summary"), ("title", "p-title"), ("worst", "p-worst")]

/-- The per-root-type v1 property translation table. -/
def backcompatPropertyOverrideMap : List (String × List (String × String)) :=
  [("h-adr",
    [("country-name", "p-country-name"), ("extended-address", "p-extended-address"),
     ("locality", "p-locality"), ("post-office-box", "p-post-office-box"),
     ("postal-code", "p-postal-code"), ("region", "p-region"),
     ("street-address", "p-street-address")]),
   ("h-card",
    [("additional-name", "p-additional-name"), ("adr", "p-adr"),
     ("agent", "p-agent"), ("bday", "dt-bday"), ("category", "p-category"),
     ("class", "p-class"), ("email", "u-email"), ("family-name", "p-family-name"),
     ("fn", "p-name"), ("geo", "p-geo"), ("given-name", "p-given-name"),
     ("honorific-prefix", "p-honorific-prefix"),
     ("honorific-suffix", "p-honorific-suffix"), ("key", "u-key"),
     ("label", "p-label"), ("logo", "u-logo"), ("mailer", "p-mailer"),
     ("nickname", "p-nickname"), ("note", "p-note"), ("org", "p-org"),
     ("photo", "u-photo"), ("rev", "dt-rev"), ("role", "p-role"),
     ("sort-string", "p-sort-string"), ("sound", "u-sound"), ("tel", "p-tel"),
     ("title", "p-job-title"), ("tz", "dt-tz"), ("uid", "u-uid"),
     ("url", "u-url")]),
   ("h-entry",
    [("author", "p-author"), ("entry-content", "e-content"),
     ("entry-summary", "p-summary"), ("entry-title", "p-name"),
     ("published", "dt-published"), ("summary", "p-summary"),
     ("updated", "dt-updated")]),
   ("h-event",
    [("attendee", "p-attendee"), ("category", "p-category"),
     ("description", "p-description"), ("dtend", "dt-end"),
     ("dtstart", "dt-start"), ("duration", "dt-duration"),
     ("location", "p-location"), ("summary", "p-name"), ("url", "u-url")]),
   ("h-feed",
    [("author", "p-author"), ("entry", "p-entry"), ("photo", "u-photo"),
     ("url", "u-url")]),
   ("h-geo", [("latitude", "p-latitude"), ("longitude", "p-longitude")]),
   ("h-news",
    [("dateline", "p-dateline"), ("entry", "p-entry"), ("geo", "p-geo"),
     ("source-org", "p-source-org")]),
   ("h-product",
    [("brand", "p-brand"), ("category", "p-category"),
     ("description", "p-description"), ("fn", "p-name"),
     ("listing", "p-listing"), ("photo", "u-photo"), ("price", "p-price"),
     ("review", "p-review"), ("url", "u-url")]),
   ("h-resume",
    [("affiliation", "p-affiliation"), ("contact", "p-contact"),
     ("education", "p-education"), ("experience", "p-experience"),
     ("publications", "p-publications"), ("skill", "p-skill"),
     ("summary", "p-summary")]),
   ("h-review",
    [("description", "e-content"), ("dtreviewed", "dt-reviewed"),
     ("item", "p-item"), ("rating", "p-rating"), ("reviewer", "p-author"),
     ("summary", "p-name")]),
   ("h-review-aggregate",
    [("average", "p-average"), ("best", "p-best"), ("count", "p-count"),
     ("item", "p-item"), ("rating", "p-rating"), ("summary", "p-name"),
     ("votes", "p-votes")])]

/-- The per-root-type rel translation table. -/
def backcompatRelMap : List (String × List (String × String)) :=
  [("h-entry", [("bookmark", "u-url")]),
   ("h-feed", [("tag", "u-category")]),
   ("h-news", [("principles", "u-principles")]),
   ("h-review", [("bookmark", "u-url"), ("tag", "u-category")])]

/-- The repository's backcompatRootClasses: translates every class found in
the root map, in class order.  The walker passes the current item as a
second argument; the implementation present in the sources takes only the
class list, and the specification describes the translation as a map
lookup, so the extra argument is dropped here. -/
def backcompatRootClasses (classes : List String) : List String :=
  classes.filterMap (lookupAssoc backcompatRootMap)

/-- Inserts into the deduplicating class map (Go classmap[parts[1]] = c):
overwrites an existing key in place or appends. -/
def classmapInsert (cm : List (String × String)) (key val : String) :
    List (String × String) :=
  match cm with
  | [] => [(key, val)]
  | (k, v) :: rest =>
    if k == key then (k, val) :: rest else (k, v) :: classmapInsert rest key val

/-- The repository's backcompatPropertyClasses: per-context override-map
translations of the classes, then rel translations, deduplicated by the
translated name.  Go iterates the resulting map in unspecified order; the
embedding keeps first-insertion order. -/
def backcompatPropertyClasses (classes rels context : List String) : List String :=
  let cm := classes.foldl
    (fun cm cls => context.foldl
      (fun cm ctx =>
        match lookupAssoc2 backcompatPropertyOverrideMap ctx cls with
        | some c => classmapInsert cm (splitOnceDash c).2 c
        | none => cm)
      cm)
    ([] : List (String × String))
  let cm := rels.foldl
    (fun cm rel => context.foldl
      (fun cm ctx =>
        match lookupAssoc2 backcompatRelMap ctx rel with
        | some c => classmapInsert cm (splitOnceDash c).2 c
        | none => cm)
      cm)
    cm
  cm.map (fun p => p.2)

/-- The repository's backcompatURLCategory: the last path segment of a
parsable URL, the input otherwise. -/
def backcompatURLCategory (s : String) : String :=
  if s == "" then s
  else
    match urlParse s with
    | some u => pathBase (urlPath u)
    | none => s

/-! ## Backcompat include pattern

The include-pattern implementation file is absent from the sources (only
its tests are present), so backcompatIncludeRefs and backcompatIncludeNode
are modelled from the specification and those tests. -/

/-- Modelled from the spec: backcompatIncludeRefs recognises
object/a elements with class "include" whose data/href is a non-empty
fragment reference (returning the id with replace = true), and otherwise an
itemref attribute whose ids are walked in addition (replace = false). -/
def backcompatIncludeRefs (node : Node) : List String × Bool :=
  let includeRefs : List String :=
    if (getClasses node).contains "include" then
      let ref :=
        if isAtom node ["a"] then getAttr node "href"
        else if isAtom node ["object"] then getAttr node "data"
        else ""
      if isPrefixList ['#'] ref.data && ref.length > 1 then [⟨ref.data.drop 1⟩]
      else []
    else []
  if includeRefs ≠ [] then (includeRefs, true)
  else
    match getAttrPtr node "itemref" with
    | some v => (fields v, false)
    | none => ([], false)

mutual
/-- First node in the tree whose id attribute equals the target. -/
def findById (target : String) : Node → Option Node
  | n@(.mk _ _ _ _ ch) =>
    if getAttr n "id" == target then some n else findByIdList target ch

/-- Forest version of findById. -/
def findByIdList (target : String) : NodeList → Option Node
  | .nil => none
  | .cons c rest =>
    match findById target c with
    | some m => some m
    | none => findByIdList target rest
end

mutual
/-- Whether `x` occurs in the tree rooted at `n` (the embedding's stand-in
for the ancestor test, which Go performs on parent pointers). -/
def containsNode (x : Node) : Node → Bool
  | n@(.mk _ _ _ _ ch) => n == x || containsNodeList x ch

/-- Forest version of containsNode. -/
def containsNodeList (x : Node) : NodeList → Bool
  | .nil => false
  | .cons c rest => containsNode x c || containsNodeList x rest
end

/-- Modelled from the spec: backcompatIncludeNode substitutes the include
targets: ids are resolved in the document, targets that contain the current
node (would-be ancestors) are rejected to keep the walk cycle-free, a
replace reference replaces the node, and itemref targets are appended as
additional children. -/
def backcompatIncludeNode (root node : Node) (refs : List String) (replace : Bool) :
    Node :=
  let targets := refs.filterMap (fun id =>
    match findById id root with
    | some t => if containsNode node t then none else some t
    | none => none)
  if replace then
    match targets with
    | t :: _ => t
    | [] => node
  else
    match node with
    | .mk ty a d attrs ch =>
      Node.mk ty a d attrs (targets.foldl (fun l t => appendChild l t) ch)
where
  /-- Appends one node at the end of a child list. -/
  appendChild : NodeList → Node → NodeList
    | .nil, x => .cons x .nil
    | .cons c rest, x => .cons c (appendChild rest x)

deriving instance DecidableEq for Microformat
deriving instance Repr for Microformat

/-! ## Parser state and the walker -/

/-- Metadata record of a rel link (the RelURL type). -/
structure RelURL where
  rels : List String
  text : String
  media : String
  hreflang : String
  title : String
  rtype : String
deriving DecidableEq, Repr

/-- The parser state: the Data accumulator (items, rels, rel-urls), the
current-item stack top, and the base URL with its one-shot flag.  The two
Go maps become insertion-ordered association lists. -/
structure PState where
  items : List Microformat
  rels : List (String × List String)
  relURLs : List (String × RelURL)
  curItem : Option Microformat
  base : Option URL
  baseFound : Bool
deriving DecidableEq, Repr

/-- Reads Rels[k] (empty slice when the key is absent); first entry wins. -/
def relsLookup : List (String × List String) → String → List String
  | [], _ => []
  | (k0, us) :: rest, k => if k0 == k then us else relsLookup rest k

/-- Appends a URL to the entry of one rel token, creating the entry when
needed. -/
def relsAppend (m : List (String × List String)) (k u : String) :
    List (String × List String) :=
  match m with
  | [] => [(k, [u])]
  | (k0, us) :: rest =>
    if k0 == k then (k0, us ++ [u]) :: rest else (k0, us) :: relsAppend rest k u

/-- The walker's duplicate-suppressing rel recording: the URL is appended
only when not already stored under the token. -/
def addRel (m : List (String × List String)) (k u : String) :
    List (String × List String) :=
  if (relsLookup m k).contains u then m else relsAppend m k u

/-- Reads the rel-urls record of a URL; first entry wins. -/
def relURLsLookup : List (String × RelURL) → String → Option RelURL
  | [], _ => none
  | (k0, r) :: rest, k => if k0 == k then some r else relURLsLookup rest k

/-- Whether the rel-urls map already has the URL as a key. -/
def relURLsHas (m : List (String × RelURL)) (k : String) : Bool :=
  (relURLsLookup m k).isSome

/-- The metadata record built when a resolved URL is first seen. -/
def mkRelURL (node : Node) (rels : List String) : RelURL :=
  { rels := rels
    text := getTextContent ImgFn.noFn node
    media := getAttr node "media"
    hreflang := getAttr node "hreflang"
    title := getAttr node "title"
    rtype := getAttr node "type" }

/-- The rel-recording block of the walker: on an a/link element with a
non-empty rel attribute, resolves the href, appends unseen (token, URL)
pairs, and inserts a first-seen rel-urls record.  Returns the split rel
tokens for the backcompat property translation. -/
def relStep (node : Node) (st : PState) : PState × List String :=
  if isAtom node ["a", "link"] then
    let rel := getAttr node "rel"
    if rel ≠ "" then
      let urlVal := expandURL (getAttr node "href") st.base
      let rels := fields rel
      let newRels := rels.foldl (fun m r => addRel m r urlVal) st.rels
      let newRelURLs :=
        if relURLsHas st.relURLs urlVal then st.relURLs
        else st.relURLs ++ [(urlVal, mkRelURL node rels)]
      ({ st with rels := newRels, relURLs := newRelURLs }, rels)
    else (st, [])
  else (st, [])

/-- The base-element block of the walker.  With a nil base URL the Go code
still calls ResolveReference on the nil receiver; net/url dereferences that
receiver exactly when the parsed href has no scheme, a runtime nil-pointer
panic, which the embedding signals as none. -/
def baseStep (node : Node) (st : PState) : Option PState :=
  if !st.baseFound && isAtom node ["base"] then
    let href := getAttr node "href"
    if href ≠ "" then
      match urlParse href with
      | none => some st
      | some nb =>
        match st.base with
        | some b =>
          some { st with base := some (URL.resolveReference b nb), baseFound := true }
        | none =>
          if nb.scheme == "" then none
          else some { st with base := some nb, baseFound := true }
    else some st
  else some st

/-- The repository's imageAltValue. -/
def imageAltValue (node : Node) : String := getAttr node "alt"

/-- The p-* value ladder: value-class pattern; abbr/link title; data/input
value; img/area alt; trimmed text content with image alt-or-src
substitution. -/
def extractP (node : Node) (base : Option URL) : String :=
  let v := getValueClassPattern node
  let v := v <|> (if isAtom node ["abbr", "link"] then getAttrPtr node "title" else none)
  let v := v <|> (if isAtom node ["data", "input"] then getAttrPtr node "value" else none)
  let v := v <|> (if isAtom node ["img", "area"] then getAttrPtr node "alt" else none)
  match v with
  | some s => s
  | none => trimSpace (getTextContent (ImgFn.altSrcValue base) node)

/-- The u-* value ladder: a/area/link href; img src (collecting a non-empty
alt into the property data when the enclosing item is v2); audio/video/
source src; object data; video poster; value-class pattern; abbr title;
data/input value; trimmed text content.  The chosen value is then resolved
against the base and trimmed. -/
def extractU (node : Node) (base : Option URL) (altOK : Bool) :
    String × List (String × String) :=
  let v0 : Option String :=
    if isAtom node ["a", "area", "link"] then getAttrPtr node "href" else none
  let vp : Option String × List (String × String) :=
    match v0 with
    | some v => (some v, [])
    | none =>
      if isAtom node ["img"] then
        (getAttrPtr node "src",
         if altOK then
           (if imageAltValue node ≠ "" then [("alt", imageAltValue node)] else [])
         else [])
      else (none, [])
  let v := vp.1
  let v := v <|> (if isAtom node ["audio", "video", "source"] then getAttrPtr node "src" else none)
  let v := v <|> (if isAtom node ["object"] then getAttrPtr node "data" else none)
  let v := v <|> (if isAtom node ["video"] then getAttrPtr node "poster" else none)
  let v := v <|> getValueClassPattern node
  let v := v <|> (if isAtom node ["abbr"] then getAttrPtr node "title" else none)
  let v := v <|> (if isAtom node ["data", "input"] then getAttrPtr node "value" else none)
  let vStr :=
    match v with
    | some s => s
    | none => trimSpace (getTextContent ImgFn.noFn node)
  (trimSpace (expandURL vStr base), vp.2)

/-- The e-* extraction: trimmed text content with image alt-or-src
substitution, and the children serialised after URL-attribute expansion,
trimmed, with self-closing markers normalised and apostrophe entities
decoded. -/
def extractE (node : Node) (base : Option URL) : String × String :=
  let value := trimSpace (getTextContent (ImgFn.altSrcValue base) node)
  let htmlbody := trimSpace (renderList (expandAttrURLsList base node.children))
  let htmlbody := replaceAll htmlbody "/>" ">"
  let htmlbody := replaceAll htmlbody "&#39;" "\x27"
  (value, htmlbody)

/-- The dt-* value ladder: value-class date/time assembly; time/ins/del
datetime; abbr title; data/input value; trimmed text content. -/
def extractDT (node : Node) : String :=
  let v := getDateTimeValue node
  let v := v <|> (if isAtom node ["time", "ins", "del"] then getAttrPtr node "datetime" else none)
  let v := v <|> (if isAtom node ["abbr"] then getAttrPtr node "title" else none)
  let v := v <|> (if isAtom node ["data", "input"] then getAttrPtr node "value" else none)
  match v with
  | some s => s
  | none => trimSpace (getTextContent ImgFn.noFn node)

/-- Sets hasPProperties on the enclosing item, when there is one. -/
def setCurHasP (cur : Option Microformat) : Option Microformat :=
  match cur with
  | some m => some m.setHasP
  | none => none

/-- Sets hasUProperties on the enclosing item, when there is one. -/
def setCurHasU (cur : Option Microformat) : Option Microformat :=
  match cur with
  | some m => some m.setHasU
  | none => none

/-- Sets hasEProperties on the enclosing item, when there is one. -/
def setCurHasE (cur : Option Microformat) : Option Microformat :=
  match cur with
  | some m => some m.setHasE
  | none => none

/-- The nested property value emitted when a property-bearing node also
opened an item: a copy carrying the id, type, properties, shape and coords
of the opened item plus the embed value and html body; the remaining fields
are zero. -/
def nestedCopy (fi : Microformat) (embedValue htmlVal : String) : Microformat :=
  Microformat.mk fi.id embedValue htmlVal fi.type fi.properties fi.shape fi.coords
    MFList.nil false false false false false

/-- The property-emission tail of the walker's per-property loop: a nested
copy when the node opened an item inside an enclosing item; otherwise a
structured object when property data was collected, or a plain string.
Only the enclosing (current) item is touched, matching the Go code, so the
step is a function of it. -/
def emitProp (cur opened : Option Microformat) (name : String)
    (value : Option String) (propData : List (String × String))
    (embed : Option String) : Option Microformat :=
  match opened, cur with
  | some fi, some enc =>
    let embedV :=
      match embed with
      | some s => s
      | none => match value with | some v => v | none => ""
    let htmlVal := match lookupAssoc propData "html" with | some h => h | none => ""
    some (enc.withProperties
        (enc.properties.appendVal name (.item (nestedCopy fi embedV htmlVal))))
  | none, some enc =>
    match value with
    | some v =>
      if propData ≠ [] then
        some (enc.withProperties
            (enc.properties.appendVal name (.obj (propData ++ [("value", v)]))))
      else
        some (enc.withProperties (enc.properties.appendVal name (.str v)))
    | none => cur
  | _, none => cur

/-- One iteration of the walker's property loop: splits the prefixed class,
raises the matching has-flag on the enclosing item, extracts the value with
the prefix ladder, and emits.  The final catch-all arm is unreachable
because translated classes always carry one of the four prefixes. -/
def processProp (node : Node) (base : Option URL) (opened : Option Microformat)
    (cur : Option Microformat) (prop : String) : Option Microformat :=
  let parts := splitOnceDash prop
  let name := parts.2
  if parts.1 == "p" then
    let cur := setCurHasP cur
    let value := extractP node base
    let embed : Option String :=
      match opened, cur with
      | some fi, some _ => getFirstPropValue fi "name"
      | _, _ => none
    emitProp cur opened name (some value) [] embed
  else if parts.1 == "u" then
    let cur := setCurHasU cur
    let altOK := match cur with | some enc => !enc.bc | none => false
    let vp := extractU node base altOK
    let embed : Option String :=
      match opened, cur with
      | some fi, some _ => getFirstPropValue fi "url"
      | _, _ => none
    let value :=
      match cur with
      | some enc =>
        if enc.bc && name == "category" then backcompatURLCategory vp.1 else vp.1
      | none => vp.1
    emitProp cur opened name (some value) vp.2 embed
  else if parts.1 == "e" then
    let cur := setCurHasE cur
    let ve := extractE node base
    emitProp cur opened name (some ve.1) [("html", ve.2)] none
  else if parts.1 == "dt" then
    emitProp cur opened name (some (extractDT node)) [] none
  else cur

/-- The property-classes block of the walker: computes the property classes
(backcompat translation under a backcompat enclosing item, the v2 pattern
otherwise), runs the per-property loop, and otherwise attaches an opened
item as a child of the enclosing item. -/
def propStep (node : Node) (classes relTokens : List String)
    (opened : Option Microformat) (st : PState) : PState :=
  let propertyclasses :=
    match st.curItem with
    | some enc =>
      if enc.bc then backcompatPropertyClasses classes relTokens enc.type
      else classes.filter propertyClassName
    | none => classes.filter propertyClassName
  if propertyclasses ≠ [] then
    { st with curItem := propertyclasses.foldl (processProp node st.base opened) st.curItem }
  else
    match opened, st.curItem with
    | some fi, some enc => { st with curItem := some (enc.attachChild fi) }
    | _, _ => st

/-- The implied-name stage of the close pass, with its gating conditions:
no explicit name, no nested microformats, no p-* and no e-* properties. -/
def impliedNameStep (node : Node) (ci : Microformat) : Microformat :=
  if !ci.properties.hasKey "name" && !ci.hasNested && !ci.hasP && !ci.hasE then
    if getImpliedName node ≠ "" then
      ci.withProperties (ci.properties.appendVal "name" (.str (getImpliedName node)))
    else ci
  else ci

/-- The implied-photo stage of the close pass: gated on no explicit photo,
no nested microformats and no u-* properties; emits a value-with-alt
object when a non-empty alt was captured, a plain string when only a src
was found, and nothing otherwise. -/
def impliedPhotoStep (node : Node) (base : Option URL) (ci : Microformat) : Microformat :=
  if !ci.properties.hasKey "photo" && !ci.hasNested && !ci.hasU then
    if (getImpliedPhoto node base).2 ≠ "" then
      ci.withProperties (ci.properties.appendVal "photo"
        (.obj [("alt", (getImpliedPhoto node base).2), ("value", (getImpliedPhoto node base).1)]))
    else if (getImpliedPhoto node base).1 ≠ "" then
      ci.withProperties (ci.properties.appendVal "photo" (.str (getImpliedPhoto node base).1))
    else ci
  else ci

/-- The implied-url stage of the close pass: gated on no explicit url, no
nested microformats and no u-* properties. -/
def impliedURLStep (node : Node) (base : Option URL) (ci : Microformat) : Microformat :=
  if !ci.properties.hasKey "url" && !ci.hasNested && !ci.hasU then
    if getImpliedURL node base ≠ "" then
      ci.withProperties (ci.properties.appendVal "url" (.str (getImpliedURL node base)))
    else ci
  else ci

/-- The implied-value pass run when an opened item is closed: the implied
end date, then (for non-backcompat items) implied name, photo and url with
their gating conditions. -/
def finalizeItem (node : Node) (base : Option URL) (ci : Microformat) : Microformat :=
  if (implyEndDate ci).bc then implyEndDate ci
  else impliedURLStep node base
    (impliedPhotoStep node base (impliedNameStep node (implyEndDate ci)))

/-- Children loop of the walker, threading the state and propagating a
panic. -/
def walkChildren (f : PState → Node → Option PState) : PState → NodeList → Option PState
  | st, .nil => some st
  | st, .cons c rest =>
    match f st c with
    | none => none
    | some st1 => walkChildren f st1 rest

/-- The stack pop at the end of a node that opened an item: the item is
finalised, the prior current item is restored, and a finished top-level
item is appended to the output items. -/
def closeStep (node : Node) (opened : Bool) (prior : Option Microformat)
    (st : PState) : PState × Option Microformat :=
  if opened then
    match st.curItem with
    | some ci =>
      let fi := finalizeItem node st.base ci
      ({ st with
          curItem := prior
          items := if prior.isNone then st.items ++ [fi] else st.items },
       some fi)
    | none => (st, none)
  else (st, none)

/-- The root-class computation: the v2 classes when any match, else the
backcompat translations with the backcompat flag raised. -/
def rootClassesOf (classes : List String) : List String × Bool :=
  let rc2 := classes.filter rootClassName
  if rc2.isEmpty then
    (backcompatRootClasses classes, !(backcompatRootClasses classes).isEmpty)
  else (rc2, false)

/-- The item-opening stage: returns the state with the freshly opened item
(types sorted, id kept for v2 items), the saved prior item with its nested
flag raised, and whether an item was opened. -/
def openStep (node : Node) (st : PState) : PState × Option Microformat × Bool :=
  let rb := rootClassesOf (getClasses node)
  if rb.1.isEmpty then (st, st.curItem, false)
  else
    ({ st with curItem := some (newItem (sortStrings rb.1) rb.2
          (if rb.2 then "" else getAttr node "id")) },
     st.curItem.map Microformat.setHasNested, true)

/-- The backcompat include hook: under a backcompat current item, a node
with include references is substituted. -/
def includeStep (root : Node) (st1 : PState) (node : Node) : Node :=
  match st1.curItem with
  | some ci =>
    if ci.bc then
      let rr := backcompatIncludeRefs node
      if rr.1 ≠ [] then backcompatIncludeNode root node rr.1 rr.2 else node
    else node
  | none => node

/-- One walker step over a node, parameterised by the recursive call used
on the children.  The stages mirror the source order: template skip, root
classes (v2 then backcompat), item opening with sorted types, the include
hook, the base element, rel recording, children, implied-value
finalisation with stack pop, and the property classes. -/
def walkStep (root : Node) (recur : PState → Node → Option PState)
    (st : PState) (node : Node) : Option PState :=
  if isAtom node ["template"] then some st
  else
    let ob := openStep node st
    let node1 := includeStep root ob.1 node
    match baseStep node1 ob.1 with
    | none => none
    | some st2 =>
      let pr := relStep node1 st2
      match walkChildren recur pr.1 node1.children with
      | none => none
      | some st4 =>
        let cf := closeStep node1 ob.2.2 ob.2.1 st4
        some (propStep node1 (getClasses node) pr.2 cf.2 cf.1)

/-- The walker.  Fuel bounds the recursion depth (the include pattern can
substitute non-subterm subtrees); exhausted fuel returns the state as is,
which no real document with the generous fuel of parseNode reaches. -/
def walk (root : Node) : Nat → PState → Node → Option PState
  | 0, st, _ => some st
  | fuel + 1, st, node => walkStep root (walk root fuel) st node

/-- The initial state of ParseNode. -/
def initState (base : Option URL) : PState :=
  { items := [], rels := [], relURLs := [], curItem := none,
    base := base, baseFound := false }

/-- ParseNode: walks the document with a fuel that generously bounds the
recursion depth. -/
def parseNode (doc : Node) (base : Option URL) : Option PState :=
  let n := nodeCount doc + 1
  walk doc (n * n) (initState base) doc

/-! ## Invariant predicates and specification-side definitions -/

mutual
/-- Recursive well-typedness of an item: the type list is non-empty and
sorted, and every nested item (in properties or children) is well-typed. -/
def Microformat.typesOK : Microformat → Bool
  | .mk _ _ _ ty props _ _ ch _ _ _ _ _ =>
    !ty.isEmpty && sortedLe ty && PropMap.typesOK props && MFList.typesOK ch

/-- Well-typedness over a property map. -/
def PropMap.typesOK : PropMap → Bool
  | .nil => true
  | .cons _ vals rest => PropValueList.typesOK vals && PropMap.typesOK rest

/-- Well-typedness over a value list. -/
def PropValueList.typesOK : PropValueList → Bool
  | .nil => true
  | .cons v t => PropValue.typesOK v && PropValueList.typesOK t

/-- Well-typedness of one property value. -/
def PropValue.typesOK : PropValue → Bool
  | .str _ => true
  | .obj _ => true
  | .item m => Microformat.typesOK m

/-- Well-typedness over a child list. -/
def MFList.typesOK : MFList → Bool
  | .nil => true
  | .cons m t => Microformat.typesOK m && MFList.typesOK t
end

/-- Well-typedness of an item list. -/
def itemsOK (l : List Microformat) : Bool := l.all Microformat.typesOK

/-- Well-typedness of an optional current item. -/
def curOK : Option Microformat → Bool
  | none => true
  | some m => m.typesOK

/-- State invariant carried through the walk for the type-list claims. -/
def StateOK (st : PState) : Prop := itemsOK st.items = true ∧ curOK st.curItem = true

/-- Per-token duplicate freedom of the rels map. -/
def RelsInv (m : List (String × List String)) : Prop :=
  ∀ t, (relsLookup m t).Nodup

/-- Relation guaranteed between the states before and after any walk step:
rel duplicate-freedom is preserved, existing rel-urls records are never
changed, well-typedness is preserved, the presence of a current item is
preserved, and a current item that has already received a p-* property
keeps that mark. -/
def WalkRel (st st2 : PState) : Prop :=
  (RelsInv st.rels → RelsInv st2.rels)
  ∧ (∀ u r, relURLsLookup st.relURLs u = some r → relURLsLookup st2.relURLs u = some r)
  ∧ (StateOK st → StateOK st2)
  ∧ st2.curItem.isSome = st.curItem.isSome
  ∧ (∀ m, st.curItem = some m → m.hasP = true →
      ∃ m2, st2.curItem = some m2 ∧ m2.hasP = true)

mutual
/-- No node of the tree bears a v2 root class or a backcompat root class. -/
def noRoots : Node → Bool
  | n@(.mk _ _ _ _ ch) =>
    ((getClasses n).filter rootClassName).isEmpty
      && (backcompatRootClasses (getClasses n)).isEmpty
      && noRootsList ch

/-- Forest version of noRoots. -/
def noRootsList : NodeList → Bool
  | .nil => true
  | .cons c rest => noRoots c && noRootsList rest
end

/-- Specification-side statement of the u-* candidate ladder, in the order
the specification lists it: href on a/area/link; src on img; src on
audio/video/source; data on object; poster on video; value-class pattern;
abbr title; data/input value.  The text-content fallback is supplied by the
caller. -/
def uCandidateSpec (node : Node) : Option String :=
  (if isAtom node ["a", "area", "link"] then getAttrPtr node "href" else none)
  <|> (if isAtom node ["img"] then getAttrPtr node "src" else none)
  <|> (if isAtom node ["audio", "video", "source"] then getAttrPtr node "src" else none)
  <|> (if isAtom node ["object"] then getAttrPtr node "data" else none)
  <|> (if isAtom node ["video"] then getAttrPtr node "poster" else none)
  <|> getValueClassPattern node
  <|> (if isAtom node ["abbr"] then getAttrPtr node "title" else none)
  <|> (if isAtom node ["data", "input"] then getAttrPtr node "value" else none)

/-- Specification-side list of URL-bearing attributes rewritten inside e-*
serialisation. -/
def specURLAttrs : List String :=
  ["href", "src", "data", "cite", "formaction", "action", "ping", "poster"]

/-! ## Concrete documents used by the counterexamples and witnesses -/

/-- A base URL for concrete runs (the test suite's page URL). -/
def exBase : Option URL := some ⟨"http", "//example.com/"⟩

/-- Document with a relative base href, parsed with no base URL. -/
def docRelativeBase : Node :=
  elemN "html" [] [elemN "base" [("href", "/about/")] []]

/-- A backcompat item whose generated root classes are out of order. -/
def docVeventAdr : Node := elemN "div" [("class", "vevent adr")] []

/-- An h-card on an img element with alt but no src. -/
def docImgAltNoSrc : Node := elemN "img" [("class", "h-card"), ("alt", "x")] []

/-- A v1 hentry with a title property class that only the generic fallback
table could translate. -/
def docHentryTitle : Node :=
  elemN "div" [("class", "hentry")] [elemN "span" [("class", "title")] [textN "T"]]

/-- Property classes with no enclosing item anywhere. -/
def docOrphanProps : Node :=
  elemN "div" [] [elemN "span" [("class", "p-name")] [textN "X"]]

/-- A root class together with a property class on a top-level node. -/
def docRootWithProp : Node :=
  elemN "div" [("class", "h-card p-x")] [textN "Y"]

/-- Duplicate rel links for the rels-map claims. -/
def docDupRels : Node :=
  elemN "div" []
    [elemN "a" [("rel", "me author"), ("href", "/x")] [textN "one"],
     elemN "a" [("rel", "me"), ("href", "/x"), ("title", "two")] [textN "two"]]

/-- A template element with item, property and rel markup inside. -/
def docTemplate : Node :=
  elemN "template" []
    [elemN "div" [("class", "h-card")] [textN "T"],
     elemN "a" [("rel", "me"), ("href", "/x")] []]

/-! ## Lemmas about the rels and rel-urls maps -/

theorem relsLookup_relsAppend_self (m : List (String × List String)) (k u : String) :
    relsLookup (relsAppend m k u) k = relsLookup m k ++ [u] := by
  induction m with
  | nil => simp [relsAppend, relsLookup]
  | cons hd tl ih =>
    obtain ⟨k0, us⟩ := hd
    by_cases h : k0 = k
    · subst h; simp [relsAppend, relsLookup]
    · simp [relsAppend, relsLookup, h, ih]

theorem relsLookup_relsAppend_ne (m : List (String × List String)) (k u t : String)
    (hne : t ≠ k) :
    relsLookup (relsAppend m k u) t = relsLookup m t := by
  induction m with
  | nil => simp [relsAppend, relsLookup, Ne.symm hne]
  | cons hd tl ih =>
    obtain ⟨k0, us⟩ := hd
    by_cases h : k0 = k
    · subst h
      simp [relsAppend, relsLookup, Ne.symm hne]
    · by_cases h0t : k0 = t
      · subst h0t; simp [relsAppend, relsLookup, h]
      · simp [relsAppend, relsLookup, h, h0t, ih]

theorem addRel_relsInv (m : List (String × List String)) (k u : String)
    (h : RelsInv m) : RelsInv (addRel m k u) := by
  intro t
  unfold addRel
  split
  · exact h t
  · rename_i hnc
    by_cases ht : t = k
    · subst ht
      rw [relsLookup_relsAppend_self]
      have hmem : u ∉ relsLookup m t := by
        intro hm
        exact hnc (by simpa [List.contains] using List.elem_eq_true_of_mem hm)
      simpa [List.concat_eq_append] using (h t).concat hmem
    · rw [relsLookup_relsAppend_ne m k u t ht]
      exact h t

theorem foldl_addRel_relsInv (l : List String) (u : String)
    (m : List (String × List String)) (h : RelsInv m) :
    RelsInv (l.foldl (fun mm r => addRel mm r u) m) := by
  induction l generalizing m with
  | nil => simpa using h
  | cons hd tl ih => exact ih _ (addRel_relsInv m hd u h)

theorem relURLsLookup_append (m : List (String × RelURL)) (e : String × RelURL)
    (u : String) (r : RelURL) (h : relURLsLookup m u = some r) :
    relURLsLookup (m ++ [e]) u = some r := by
  induction m with
  | nil => simp [relURLsLookup] at h
  | cons hd tl ih =>
    obtain ⟨k0, r0⟩ := hd
    by_cases hh : k0 = u
    · subst hh
      simpa [relURLsLookup] using (by simpa [relURLsLookup] using h : r0 = r)
    · simp [relURLsLookup, hh] at h ⊢
      exact ih h

/-! ## Lemmas about sorting -/

theorem charListLe_total (a b : List Char) :
    charListLe a b = true ∨ charListLe b a = true := by
  induction a generalizing b with
  | nil => left; rfl
  | cons x xs ih =>
    cases b with
    | nil => right; rfl
    | cons y ys =>
      by_cases h1 : x.toNat < y.toNat
      · left; simp [charListLe, h1]
      · by_cases h2 : y.toNat < x.toNat
        · right; simp [charListLe, h2]
        · cases ih ys with
          | inl h => left; simp [charListLe, h1, h2, h]
          | inr h => right; simp [charListLe, h1, h2, h]

theorem strLe_total (a b : String) : strLe a b = true ∨ strLe b a = true :=
  charListLe_total a.data b.data

/-- Head bound used in the sortedness proofs. -/
def headLe (x : String) : List String → Bool
  | [] => true
  | y :: _ => strLe x y

theorem sortedLe_cons (x : String) (l : List String) :
    sortedLe (x :: l) = (headLe x l && sortedLe l) := by
  cases l <;> simp [sortedLe, headLe]

theorem headLe_insertStr (t s : String) (l : List String)
    (h1 : headLe t l = true) (h2 : strLe t s = true) :
    headLe t (insertStr s l) = true := by
  cases l with
  | nil => simpa [insertStr, headLe] using h2
  | cons y ys =>
    by_cases hy : strLe s y = true
    · simpa [insertStr, hy, headLe] using h2
    · simpa [insertStr, hy, headLe] using h1

theorem sortedLe_insertStr (s : String) (l : List String)
    (h : sortedLe l = true) : sortedLe (insertStr s l) = true := by
  induction l with
  | nil => simp [insertStr, sortedLe]
  | cons y ys ih =>
    rw [sortedLe_cons] at h
    obtain ⟨hy, hys⟩ := by simpa using h
    cases hs : strLe s y with
    | true =>
      simp only [insertStr, hs, if_true]
      rw [sortedLe_cons, sortedLe_cons, hy, hys]
      simpa [headLe] using hs
    | false =>
      simp only [insertStr, hs, Bool.false_eq_true, if_false]
      rw [sortedLe_cons]
      have hts : strLe y s = true := by
        cases strLe_total s y with
        | inl hh => rw [hh] at hs; exact absurd hs (by simp)
        | inr hh => exact hh
      rw [headLe_insertStr y s ys hy hts, ih hys]
      rfl

theorem sortStrings_cons (x : String) (xs : List String) :
    sortStrings (x :: xs) = insertStr x (sortStrings xs) := rfl

theorem sortedLe_sortStrings (l : List String) : sortedLe (sortStrings l) = true := by
  induction l with
  | nil => rfl
  | cons x xs ih => rw [sortStrings_cons]; exact sortedLe_insertStr x _ ih

theorem insertStr_length (s : String) (l : List String) :
    (insertStr s l).length = l.length + 1 := by
  induction l with
  | nil => rfl
  | cons y ys ih =>
    cases h : strLe s y <;> simp [insertStr, h, ih]

theorem sortStrings_length (l : List String) : (sortStrings l).length = l.length := by
  induction l with
  | nil => rfl
  | cons x xs ih => rw [sortStrings_cons, insertStr_length, ih]; rfl

theorem sortStrings_ne_nil (l : List String) (h : l ≠ []) : sortStrings l ≠ [] := by
  intro hc
  have hlen := sortStrings_length l
  rw [hc] at hlen
  simp at hlen
  exact h (List.length_eq_zero.mp hlen.symm)

/-! ## Lemmas about well-typedness -/

theorem typesOK_decomp (m : Microformat) :
    m.typesOK
      = (!m.type.isEmpty && sortedLe m.type
          && m.properties.typesOK && m.childrenL.typesOK) := by
  cases m; rfl

theorem typesOK_setHasNested (m : Microformat) :
    m.setHasNested.typesOK = m.typesOK := by cases m; rfl

theorem typesOK_setHasP (m : Microformat) : m.setHasP.typesOK = m.typesOK := by
  cases m; rfl

theorem typesOK_setHasE (m : Microformat) : m.setHasE.typesOK = m.typesOK := by
  cases m; rfl

theorem typesOK_setHasU (m : Microformat) : m.setHasU.typesOK = m.typesOK := by
  cases m; rfl

theorem typesOK_withProperties (m : Microformat) (p : PropMap) :
    (m.withProperties p).typesOK
      = (!m.type.isEmpty && sortedLe m.type && p.typesOK && m.childrenL.typesOK) := by
  cases m; rfl

theorem pvl_concat_ok : ∀ (l : PropValueList) (v : PropValue),
    l.typesOK = true → v.typesOK = true → (l.concat v).typesOK = true
  | .nil, v, _, hv => by simpa [PropValueList.concat, PropValueList.typesOK] using hv
  | .cons h t, v, hl, hv => by
    simp [PropValueList.typesOK] at hl
    simp [PropValueList.concat, PropValueList.typesOK, hl.1, pvl_concat_ok t v hl.2 hv]

theorem appendVal_ok : ∀ (m : PropMap) (k : String) (v : PropValue),
    m.typesOK = true → v.typesOK = true → (m.appendVal k v).typesOK = true
  | .nil, k, v, _, hv => by
    simp [PropMap.appendVal, PropMap.typesOK, PropValueList.typesOK, hv]
  | .cons n vals rest, k, v, hm, hv => by
    simp [PropMap.typesOK] at hm
    by_cases h : n = k
    · subst h
      simp [PropMap.appendVal, PropMap.typesOK, pvl_concat_ok vals v hm.1 hv, hm.2]
    · simp [PropMap.appendVal, PropMap.typesOK, h, hm.1, appendVal_ok rest k v hm.2 hv]

theorem mfl_concat_ok : ∀ (l : MFList) (x : Microformat),
    l.typesOK = true → x.typesOK = true → (MFList.concat l x).typesOK = true
  | .nil, x, _, hx => by simpa [MFList.concat, MFList.typesOK] using hx
  | .cons m t, x, hl, hx => by
    simp [MFList.typesOK] at hl
    simp [MFList.concat, MFList.typesOK, hl.1, mfl_concat_ok t x hl.2 hx]

theorem find?_vals_ok : ∀ (m : PropMap) (k : String) (vals : PropValueList),
    m.typesOK = true → m.find? k = some vals → vals.typesOK = true
  | .nil, k, vals, _, h => by simp [PropMap.find?] at h
  | .cons n vs rest, k, vals, hm, h => by
    simp [PropMap.typesOK] at hm
    by_cases hn : n = k
    · subst hn
      simp [PropMap.find?] at h
      subst h
      exact hm.1
    · simp [PropMap.find?, hn] at h
      exact find?_vals_ok rest k vals hm.2 h

theorem setVals_ok : ∀ (m : PropMap) (k : String) (nv : PropValueList),
    m.typesOK = true → nv.typesOK = true → (m.setVals k nv).typesOK = true
  | .nil, k, nv, _, _ => by simp [PropMap.setVals, PropMap.typesOK]
  | .cons n vs rest, k, nv, hm, hnv => by
    simp [PropMap.typesOK] at hm
    by_cases hn : n = k
    · subst hn
      simp [PropMap.setVals, PropMap.typesOK, hnv, hm.2]
    · simp [PropMap.setVals, PropMap.typesOK, hn, hm.1, setVals_ok rest k nv hm.2 hnv]

theorem fixEndVals_ok : ∀ (d : String) (l : PropValueList),
    l.typesOK = true → (fixEndVals d l).typesOK = true
  | _, .nil, _ => by simp [fixEndVals, PropValueList.typesOK]
  | d, .cons v t, hl => by
    simp [PropValueList.typesOK] at hl
    cases v with
    | str s =>
      simp [fixEndVals, PropValueList.typesOK, PropValue.typesOK, fixEndVals_ok d t hl.2]
    | obj kvs => simp [fixEndVals, PropValueList.typesOK, hl.1, fixEndVals_ok d t hl.2]
    | item m => simp [fixEndVals, PropValueList.typesOK, hl.1, fixEndVals_ok d t hl.2]

theorem implyEndDate_ok (m : Microformat) (hm : m.typesOK = true) :
    (implyEndDate m).typesOK = true := by
  unfold implyEndDate
  split
  · rename_i endVals startVals hEnd hStart
    split
    · rename_i d hd
      rw [typesOK_decomp] at hm
      simp only [Bool.and_eq_true] at hm
      rw [typesOK_withProperties]
      simp only [Bool.and_eq_true]
      refine ⟨⟨⟨hm.1.1.1, hm.1.1.2⟩, ?_⟩, hm.2⟩
      exact setVals_ok _ _ _ hm.1.2 (fixEndVals_ok d endVals (find?_vals_ok _ _ _ hm.1.2 hEnd))
    · exact hm
  · exact hm

theorem nestedCopy_ok (fi : Microformat) (e h : String) (hfi : fi.typesOK = true) :
    (nestedCopy fi e h).typesOK = true := by
  rw [typesOK_decomp] at hfi
  simp only [Bool.and_eq_true] at hfi
  cases fi
  simp only [nestedCopy]
  rw [typesOK_decomp]
  simp_all [Microformat.type, Microformat.properties, Microformat.childrenL,
    Microformat.id, Microformat.shape, Microformat.coords, MFList.typesOK]

theorem attachChild_ok (m c : Microformat) (hm : m.typesOK = true)
    (hc : c.typesOK = true) : (m.attachChild c).typesOK = true := by
  rw [typesOK_decomp] at hm
  simp only [Bool.and_eq_true] at hm
  cases m
  simp only [Microformat.attachChild]
  rw [typesOK_decomp]
  simp only [Bool.and_eq_true]
  simp only [Microformat.type, Microformat.properties, Microformat.childrenL] at hm ⊢
  exact ⟨⟨⟨hm.1.1.1, hm.1.1.2⟩, hm.1.2⟩, mfl_concat_ok _ c hm.2 hc⟩

theorem newItem_ok (ty : List String) (bcFlag : Bool) (idVal : String)
    (hne : ty ≠ []) (hs : sortedLe ty = true) :
    (newItem ty bcFlag idVal).typesOK = true := by
  simp [newItem, typesOK_decomp, Microformat.type, Microformat.properties,
    Microformat.childrenL, PropMap.typesOK, MFList.typesOK, hs]
  exact hne

theorem withAppend_ok (c : Microformat) (k : String) (v : PropValue)
    (hcOK : c.typesOK = true) (hvOK : v.typesOK = true) :
    (c.withProperties (c.properties.appendVal k v)).typesOK = true := by
  rw [typesOK_withProperties]
  rw [typesOK_decomp] at hcOK
  simp only [Bool.and_eq_true] at hcOK ⊢
  exact ⟨⟨⟨hcOK.1.1.1, hcOK.1.1.2⟩, appendVal_ok _ _ _ hcOK.1.2 hvOK⟩, hcOK.2⟩

theorem impliedNameStep_ok (node : Node) (c : Microformat)
    (hc : c.typesOK = true) : (impliedNameStep node c).typesOK = true := by
  unfold impliedNameStep
  split
  · split
    · exact withAppend_ok c "name" _ hc rfl
    · exact hc
  · exact hc

theorem impliedPhotoStep_ok (node : Node) (base : Option URL) (c : Microformat)
    (hc : c.typesOK = true) : (impliedPhotoStep node base c).typesOK = true := by
  unfold impliedPhotoStep
  split
  · split
    · exact withAppend_ok c "photo" _ hc rfl
    · split
      · exact withAppend_ok c "photo" _ hc rfl
      · exact hc
  · exact hc

theorem impliedURLStep_ok (node : Node) (base : Option URL) (c : Microformat)
    (hc : c.typesOK = true) : (impliedURLStep node base c).typesOK = true := by
  unfold impliedURLStep
  split
  · split
    · exact withAppend_ok c "url" _ hc rfl
    · exact hc
  · exact hc

theorem finalizeItem_ok (node : Node) (base : Option URL) (ci : Microformat)
    (h : ci.typesOK = true) : (finalizeItem node base ci).typesOK = true := by
  unfold finalizeItem
  have h1 := implyEndDate_ok ci h
  split
  · exact h1
  · exact impliedURLStep_ok node base _
      (impliedPhotoStep_ok node base _ (impliedNameStep_ok node _ h1))

/-! ## Field-preservation lemmas for the flag setters -/

theorem hasP_setHasU (m : Microformat) : m.setHasU.hasP = m.hasP := by cases m; rfl

theorem hasP_setHasE (m : Microformat) : m.setHasE.hasP = m.hasP := by cases m; rfl

theorem hasP_setHasP (m : Microformat) : m.setHasP.hasP = true := by cases m; rfl

theorem hasP_setHasNested (m : Microformat) : m.setHasNested.hasP = m.hasP := by
  cases m; rfl

theorem hasP_withProperties (m : Microformat) (p : PropMap) :
    (m.withProperties p).hasP = m.hasP := by cases m; rfl

theorem hasP_attachChild (m c : Microformat) : (m.attachChild c).hasP = m.hasP := by
  cases m; rfl

/-! ## Stage lemmas: relStep -/

theorem relStep_items (node : Node) (st : PState) :
    (relStep node st).1.items = st.items := by
  simp only [relStep]
  split
  · split <;> rfl
  · rfl

theorem relStep_curItem (node : Node) (st : PState) :
    (relStep node st).1.curItem = st.curItem := by
  simp only [relStep]
  split
  · split <;> rfl
  · rfl

theorem relStep_base (node : Node) (st : PState) :
    (relStep node st).1.base = st.base := by
  simp only [relStep]
  split
  · split <;> rfl
  · rfl

theorem relStep_baseFound (node : Node) (st : PState) :
    (relStep node st).1.baseFound = st.baseFound := by
  simp only [relStep]
  split
  · split <;> rfl
  · rfl

theorem relStep_relsInv (node : Node) (st : PState) (h : RelsInv st.rels) :
    RelsInv (relStep node st).1.rels := by
  simp only [relStep]
  split
  · split
    · exact foldl_addRel_relsInv _ _ _ h
    · exact h
  · exact h

theorem relStep_relURLs (node : Node) (st : PState) (u : String) (r : RelURL)
    (h : relURLsLookup st.relURLs u = some r) :
    relURLsLookup (relStep node st).1.relURLs u = some r := by
  simp only [relStep]
  split
  · split
    · simp only
      split
      · exact h
      · exact relURLsLookup_append _ _ u r h
    · exact h
  · exact h

/-! ## Stage lemmas: baseStep -/

theorem baseStep_shape (node : Node) (st st2 : PState)
    (h : baseStep node st = some st2) :
    ∃ b bf, st2 = { st with base := b, baseFound := bf } := by
  simp only [baseStep] at h
  repeat' split at h
  all_goals first
    | (cases h; exact ⟨_, _, rfl⟩)
    | cases h

/-! ## Stage lemmas: the property loop -/

theorem emitProp_none (opened : Option Microformat) (name : String)
    (value : Option String) (propData : List (String × String))
    (embed : Option String) :
    emitProp none opened name value propData embed = none := by
  cases opened <;> rfl

theorem processProp_none (node : Node) (base : Option URL)
    (opened : Option Microformat) (prop : String) :
    processProp node base opened none prop = none := by
  simp only [processProp, setCurHasP, setCurHasU, setCurHasE]
  repeat' split
  all_goals simp [emitProp_none]

theorem emitProp_some_isSome (enc : Microformat) (opened : Option Microformat)
    (name : String) (value : Option String) (propData : List (String × String))
    (embed : Option String) :
    (emitProp (some enc) opened name value propData embed).isSome = true := by
  cases opened with
  | none =>
    cases value with
    | none => rfl
    | some v => simp only [emitProp]; split <;> rfl
  | some fi => rfl

theorem processProp_isSome (node : Node) (base : Option URL)
    (opened cur : Option Microformat) (prop : String) :
    (processProp node base opened cur prop).isSome = cur.isSome := by
  cases cur with
  | none => rw [processProp_none]
  | some m =>
    simp only [processProp, setCurHasP, setCurHasU, setCurHasE]
    repeat' split
    all_goals simp [emitProp_some_isSome]

theorem emitProp_hasP (enc : Microformat) (opened : Option Microformat)
    (name : String) (value : Option String) (propData : List (String × String))
    (embed : Option String) (hp : enc.hasP = true) :
    ∃ m2, emitProp (some enc) opened name value propData embed = some m2
      ∧ m2.hasP = true := by
  cases opened with
  | some fi => exact ⟨_, rfl, by rw [hasP_withProperties]; exact hp⟩
  | none =>
    cases value with
    | none => exact ⟨enc, rfl, hp⟩
    | some v =>
      simp only [emitProp]
      split
      · exact ⟨_, rfl, by rw [hasP_withProperties]; exact hp⟩
      · exact ⟨_, rfl, by rw [hasP_withProperties]; exact hp⟩

theorem processProp_hasP (node : Node) (base : Option URL)
    (opened : Option Microformat) (m : Microformat) (prop : String)
    (hp : m.hasP = true) :
    ∃ m2, processProp node base opened (some m) prop = some m2 ∧ m2.hasP = true := by
  simp only [processProp, setCurHasP, setCurHasU, setCurHasE]
  repeat' split
  all_goals first
    | exact emitProp_hasP _ _ _ _ _ _ (by rw [hasP_setHasP])
    | exact emitProp_hasP _ _ _ _ _ _ (by rw [hasP_setHasU]; exact hp)
    | exact emitProp_hasP _ _ _ _ _ _ (by rw [hasP_setHasE]; exact hp)
    | exact emitProp_hasP _ _ _ _ _ _ hp
    | exact ⟨m, rfl, hp⟩

theorem emitProp_cur_ok (enc : Microformat) (opened : Option Microformat)
    (name : String) (value : Option String) (propData : List (String × String))
    (embed : Option String) (hok : enc.typesOK = true)
    (hfi : ∀ fi, opened = some fi → fi.typesOK = true) :
    curOK (emitProp (some enc) opened name value propData embed) = true := by
  cases opened with
  | some fi =>
    have hv : ∀ (e h : String), (PropValue.item (nestedCopy fi e h)).typesOK = true := by
      intro e h
      show (nestedCopy fi e h).typesOK = true
      exact nestedCopy_ok _ _ _ (hfi fi rfl)
    have heq : emitProp (some enc) (some fi) name value propData embed
        = some (enc.withProperties (enc.properties.appendVal name
            (PropValue.item (nestedCopy fi
              (match embed with
               | some s => s
               | none => match value with | some v => v | none => "")
              (match lookupAssoc propData "html" with
               | some h => h
               | none => ""))))) := rfl
    rw [heq]
    exact withAppend_ok _ _ _ hok (hv _ _)
  | none =>
    cases value with
    | none => exact hok
    | some v =>
      simp only [emitProp]
      split
      · exact withAppend_ok enc name (PropValue.obj (propData ++ [("value", v)])) hok rfl
      · exact withAppend_ok enc name (PropValue.str v) hok rfl

theorem typesOK_setters (m : Microformat) :
    m.setHasP.typesOK = m.typesOK ∧ m.setHasU.typesOK = m.typesOK
      ∧ m.setHasE.typesOK = m.typesOK := by
  exact ⟨typesOK_setHasP m, typesOK_setHasU m, typesOK_setHasE m⟩

theorem processProp_cur_ok (node : Node) (base : Option URL)
    (opened cur : Option Microformat) (prop : String)
    (hok : curOK cur = true)
    (hfi : ∀ fi, opened = some fi → fi.typesOK = true) :
    curOK (processProp node base opened cur prop) = true := by
  cases cur with
  | none => rw [processProp_none]; rfl
  | some m =>
    have hm : m.typesOK = true := hok
    simp only [processProp, setCurHasP, setCurHasU, setCurHasE]
    repeat' split
    all_goals first
      | exact emitProp_cur_ok _ _ _ _ _ _ (by rw [typesOK_setHasP]; exact hm) hfi
      | exact emitProp_cur_ok _ _ _ _ _ _ (by rw [typesOK_setHasU]; exact hm) hfi
      | exact emitProp_cur_ok _ _ _ _ _ _ (by rw [typesOK_setHasE]; exact hm) hfi
      | exact emitProp_cur_ok _ _ _ _ _ _ hm hfi
      | exact hok

theorem foldl_processProp_isSome (l : List String) (node : Node) (base : Option URL)
    (opened : Option Microformat) (cur : Option Microformat) :
    (l.foldl (processProp node base opened) cur).isSome = cur.isSome := by
  induction l generalizing cur with
  | nil => rfl
  | cons p rest ih => rw [List.foldl_cons, ih, processProp_isSome]

theorem foldl_processProp_hasP (l : List String) (node : Node) (base : Option URL)
    (opened : Option Microformat) (m : Microformat) (hp : m.hasP = true) :
    ∃ m2, l.foldl (processProp node base opened) (some m) = some m2
      ∧ m2.hasP = true := by
  induction l generalizing m with
  | nil => exact ⟨m, rfl, hp⟩
  | cons p rest ih =>
    obtain ⟨m1, hm1, hp1⟩ := processProp_hasP node base opened m p hp
    rw [List.foldl_cons, hm1]
    exact ih m1 hp1

theorem foldl_processProp_cur_ok (l : List String) (node : Node) (base : Option URL)
    (opened cur : Option Microformat) (hok : curOK cur = true)
    (hfi : ∀ fi, opened = some fi → fi.typesOK = true) :
    curOK (l.foldl (processProp node base opened) cur) = true := by
  induction l generalizing cur with
  | nil => exact hok
  | cons p rest ih =>
    rw [List.foldl_cons]
    exact ih _ (processProp_cur_ok node base opened cur p hok hfi)

/-! ## Stage lemmas: propStep -/

theorem propStep_fields (node : Node) (classes relTokens : List String)
    (opened : Option Microformat) (st : PState) :
    (propStep node classes relTokens opened st).items = st.items
      ∧ (propStep node classes relTokens opened st).rels = st.rels
      ∧ (propStep node classes relTokens opened st).relURLs = st.relURLs
      ∧ (propStep node classes relTokens opened st).base = st.base
      ∧ (propStep node classes relTokens opened st).baseFound = st.baseFound := by
  simp only [propStep]
  repeat' split
  all_goals exact ⟨rfl, rfl, rfl, rfl, rfl⟩

theorem propStep_isSome (node : Node) (classes relTokens : List String)
    (opened : Option Microformat) (st : PState) :
    (propStep node classes relTokens opened st).curItem.isSome
      = st.curItem.isSome := by
  simp only [propStep]
  repeat' split
  all_goals simp_all [foldl_processProp_isSome]

theorem propStep_hasP (node : Node) (classes relTokens : List String)
    (opened : Option Microformat) (st : PState) (m : Microformat)
    (hcur : st.curItem = some m) (hp : m.hasP = true) :
    ∃ m2, (propStep node classes relTokens opened st).curItem = some m2
      ∧ m2.hasP = true := by
  simp only [propStep]
  split
  · rw [hcur]
    exact foldl_processProp_hasP _ node st.base opened m hp
  · split
    · rename_i fi enc henc
      rw [hcur] at henc
      cases henc
      exact ⟨_, rfl, by rw [hasP_attachChild]; exact hp⟩
    · exact ⟨m, hcur, hp⟩

theorem propStep_stateOK (node : Node) (classes relTokens : List String)
    (opened : Option Microformat) (st : PState)
    (hfi : ∀ fi, opened = some fi → fi.typesOK = true)
    (hok : StateOK st) : StateOK (propStep node classes relTokens opened st) := by
  obtain ⟨hitems, hcur⟩ := hok
  constructor
  · rw [(propStep_fields node classes relTokens opened st).1]
    exact hitems
  · simp only [propStep]
    split
    · exact foldl_processProp_cur_ok _ node st.base opened st.curItem hcur hfi
    · split
      · rename_i fi enc henc
        show (enc.attachChild fi).typesOK = true
        have henc2 : curOK (some enc) = true := by rw [← henc]; exact hcur
        exact attachChild_ok _ _ henc2 (hfi _ rfl)
      · exact hcur

/-! ## Stage lemmas: openStep and closeStep -/

theorem openStep_cases (node : Node) (st : PState) :
    openStep node st = (st, st.curItem, false)
      ∨ ∃ ty idv bcf, ty ≠ [] ∧ openStep node st
          = ({ st with curItem := some (newItem (sortStrings ty) bcf idv) },
             st.curItem.map Microformat.setHasNested, true) := by
  simp only [openStep]
  split
  · left; rfl
  · right
    rename_i hne
    refine ⟨(rootClassesOf (getClasses node)).1, _, (rootClassesOf (getClasses node)).2,
      ?_, rfl⟩
    intro hc
    exact hne (by simp [hc])

theorem closeStep_false (node : Node) (prior : Option Microformat) (st : PState) :
    closeStep node false prior st = (st, none) := rfl

theorem closeStep_true_some (node : Node) (prior : Option Microformat)
    (st : PState) (ci : Microformat) (h : st.curItem = some ci) :
    closeStep node true prior st
      = ({ st with
            curItem := prior
            items := if prior.isNone then st.items ++ [finalizeItem node st.base ci]
                     else st.items },
         some (finalizeItem node st.base ci)) := by
  simp [closeStep, h]

theorem itemsOK_append (l : List Microformat) (x : Microformat)
    (hl : itemsOK l = true) (hx : x.typesOK = true) : itemsOK (l ++ [x]) = true := by
  simp [itemsOK, List.all_append, List.all] at hl ⊢
  exact ⟨hl, hx⟩

theorem curOK_map_setHasNested (o : Option Microformat) (h : curOK o = true) :
    curOK (o.map Microformat.setHasNested) = true := by
  cases o with
  | none => rfl
  | some m => simpa [curOK, Option.map, typesOK_setHasNested] using h

/-! ## The walk-step relation -/

theorem WalkRel_refl (st : PState) : WalkRel st st :=
  ⟨id, fun _ _ h => h, id, rfl, fun m h hp => ⟨m, h, hp⟩⟩

theorem WalkRel_trans (a b c : PState) (h1 : WalkRel a b) (h2 : WalkRel b c) :
    WalkRel a c := by
  obtain ⟨r1, u1, t1, s1, p1⟩ := h1
  obtain ⟨r2, u2, t2, s2, p2⟩ := h2
  refine ⟨fun h => r2 (r1 h), fun u r h => u2 u r (u1 u r h), fun h => t2 (t1 h),
    by rw [s2, s1], fun m hm hp => ?_⟩
  obtain ⟨m1, hm1, hp1⟩ := p1 m hm hp
  exact p2 m1 hm1 hp1

theorem walkChildren_rel (f : PState → Node → Option PState)
    (hf : ∀ s n s2, f s n = some s2 → WalkRel s s2) :
    ∀ (l : NodeList) (st st2 : PState), walkChildren f st l = some st2 → WalkRel st st2
  | .nil, st, st2, h => by
    simp only [walkChildren] at h
    cases h
    exact WalkRel_refl st
  | .cons c rest, st, st2, h => by
    simp only [walkChildren] at h
    cases hc : f st c with
    | none => rw [hc] at h; cases h
    | some st1 =>
      rw [hc] at h
      exact WalkRel_trans _ _ _ (hf _ _ _ hc) (walkChildren_rel f hf rest st1 st2 h)

theorem walkStep_rel (root : Node) (recur : PState → Node → Option PState)
    (hrec : ∀ s n s2, recur s n = some s2 → WalkRel s s2)
    (st : PState) (node : Node) (st2 : PState)
    (h : walkStep root recur st node = some st2) : WalkRel st st2 := by
  simp only [walkStep] at h
  split at h
  · cases h; exact WalkRel_refl st
  · rcases openStep_cases node st with hopen | ⟨ty, idv, bcf, hty, hopen⟩
    all_goals (
      rw [hopen] at h
      simp only at h
      cases hbase : baseStep (includeStep root _ node) _ with
      | none => rw [hbase] at h; cases h
      | some stB => ?_)
    case isFalse.inl.some =>
      rw [hbase] at h
      simp only at h
      cases hch : walkChildren recur (relStep (includeStep root st node) stB).1
          (includeStep root st node).children with
      | none => rw [hch] at h; cases h
      | some st4 =>
        rw [hch] at h
        simp only [closeStep_false] at h
        cases h
        obtain ⟨b, bf, hstB⟩ := baseStep_shape _ _ _ hbase
        have hWch := walkChildren_rel recur hrec _ _ _ hch
        obtain ⟨wr, wu, wt, ws, wp⟩ := hWch
        set node1 := includeStep root st node
        set st3 := (relStep node1 stB).1 with hst3
        have hrels3 : RelsInv st.rels → RelsInv st3.rels := by
          intro hr
          apply relStep_relsInv
          rw [hstB]
          exact hr
        have hurl3 : ∀ u r, relURLsLookup st.relURLs u = some r →
            relURLsLookup st3.relURLs u = some r := by
          intro u r hr
          apply relStep_relURLs
          rw [hstB]
          exact hr
        have hcur3 : st3.curItem = st.curItem := by
          rw [hst3, relStep_curItem, hstB]
        have hitems3 : st3.items = st.items := by
          rw [hst3, relStep_items, hstB]
        refine ⟨?_, ?_, ?_, ?_, ?_⟩
        · intro hr
          have := wr (hrels3 hr)
          rw [(propStep_fields _ _ _ _ _).2.1]
          exact this
        · intro u r hr
          rw [(propStep_fields _ _ _ _ _).2.2.1]
          exact wu u r (hurl3 u r hr)
        · intro hok
          apply propStep_stateOK _ _ _ _ _ (by intro fi hfi; cases hfi)
          apply wt
          constructor
          · rw [hitems3]; exact hok.1
          · rw [hcur3]; exact hok.2
        · rw [propStep_isSome, ws, hcur3]
        · intro m hm hp
          obtain ⟨m4, hm4, hp4⟩ := wp m (by rw [hcur3]; exact hm) hp
          exact propStep_hasP _ _ _ _ _ _ hm4 hp4
    case isFalse.inr.intro.intro.intro.intro.some =>
      rw [hbase] at h
      simp only at h
      cases hch : walkChildren recur
          (relStep (includeStep root { st with curItem := some (newItem (sortStrings ty) bcf idv) } node) stB).1
          (includeStep root { st with curItem := some (newItem (sortStrings ty) bcf idv) } node).children with
      | none => rw [hch] at h; cases h
      | some st4 =>
        rw [hch] at h
        simp only at h
        obtain ⟨b, bf, hstB⟩ := baseStep_shape _ _ _ hbase
        have hWch := walkChildren_rel recur hrec _ _ _ hch
        obtain ⟨wr, wu, wt, ws, wp⟩ := hWch
        set stO : PState := { st with curItem := some (newItem (sortStrings ty) bcf idv) }
        set node1 := includeStep root stO node
        set st3 := (relStep node1 stB).1 with hst3
        have hcur3 : st3.curItem = some (newItem (sortStrings ty) bcf idv) := by
          rw [hst3, relStep_curItem, hstB]
        have hsome4 : st4.curItem.isSome = true := by
          rw [ws, hcur3]; rfl
        obtain ⟨ci, hci⟩ := Option.isSome_iff_exists.mp hsome4
        rw [closeStep_true_some node1 _ st4 ci hci] at h
        cases h
        have hitems3 : st3.items = st.items := by
          rw [hst3, relStep_items, hstB]
        have hrels3 : RelsInv st.rels → RelsInv st3.rels := by
          intro hr
          apply relStep_relsInv
          rw [hstB]
          exact hr
        have hurl3 : ∀ u r, relURLsLookup st.relURLs u = some r →
            relURLsLookup st3.relURLs u = some r := by
          intro u r hr
          apply relStep_relURLs
          rw [hstB]
          exact hr
        refine ⟨?_, ?_, ?_, ?_, ?_⟩
        · intro hr
          rw [(propStep_fields _ _ _ _ _).2.1]
          exact wr (hrels3 hr)
        · intro u r hr
          rw [(propStep_fields _ _ _ _ _).2.2.1]
          exact wu u r (hurl3 u r hr)
        · intro hok
          have hok3 : StateOK st3 := by
            constructor
            · rw [hitems3]; exact hok.1
            · rw [hcur3]
              exact newItem_ok _ bcf idv (sortStrings_ne_nil ty hty)
                (sortedLe_sortStrings ty)
          have hok4 := wt hok3
          have hciOK : ci.typesOK = true := by
            have := hok4.2
            rw [hci] at this
            exact this
          have hfiOK : (finalizeItem node1 st4.base ci).typesOK = true :=
            finalizeItem_ok _ _ _ hciOK
          apply propStep_stateOK
          · intro fi hfi
            simp only at hfi
            cases hfi
            exact hfiOK
          · constructor
            · simp only
              split
              · exact itemsOK_append _ _ hok4.1 hfiOK
              · exact hok4.1
            · simp only
              exact curOK_map_setHasNested _ hok.2
        · rw [propStep_isSome]
          simp only
          cases st.curItem <;> rfl
        · intro m hm hp
          apply propStep_hasP
          · simp only
            rw [hm]
            rfl
          · rw [hasP_setHasNested]
            exact hp

theorem walk_rel (root : Node) :
    ∀ (fuel : Nat) (st : PState) (node : Node) (st2 : PState),
      walk root fuel st node = some st2 → WalkRel st st2 := by
  intro fuel
  induction fuel with
  | zero =>
    intro st node st2 h
    simp only [walk] at h
    cases h
    exact WalkRel_refl st
  | succ n ih =>
    intro st node st2 h
    simp only [walk] at h
    exact walkStep_rel root (walk root n) (fun s nd s2 hh => ih s nd s2 hh) st node st2 h

theorem initState_relsInv (base : Option URL) : RelsInv (initState base).rels := by
  intro t
  simp [initState, relsLookup]

theorem initState_stateOK (base : Option URL) : StateOK (initState base) := by
  exact ⟨rfl, rfl⟩

theorem parseNode_rel (doc : Node) (base : Option URL) (st2 : PState)
    (h : parseNode doc base = some st2) : WalkRel (initState base) st2 := by
  simp only [parseNode] at h
  exact walk_rel doc _ _ _ _ h

/-! ## Orphan-property machinery (walk without any root classes) -/

theorem foldl_processProp_noneInit (l : List String) (node : Node) (base : Option URL)
    (opened : Option Microformat) :
    l.foldl (processProp node base opened) none = none := by
  induction l with
  | nil => rfl
  | cons p rest ih => rw [List.foldl_cons, processProp_none]; exact ih

theorem propStep_curNone (node : Node) (classes relTokens : List String)
    (opened : Option Microformat) (st : PState) (hcur : st.curItem = none) :
    (propStep node classes relTokens opened st).curItem = none := by
  simp only [propStep]
  split
  · rw [hcur]
    exact foldl_processProp_noneInit _ node st.base opened
  · split
    · rename_i fi enc henc
      rw [hcur] at henc
      cases henc
    · exact hcur

theorem noRoots_parts (node : Node) (h : noRoots node = true) :
    ((getClasses node).filter rootClassName).isEmpty = true
      ∧ (backcompatRootClasses (getClasses node)).isEmpty = true
      ∧ noRootsList node.children = true := by
  cases node with
  | mk t a d ats ch =>
    simp only [noRoots, Bool.and_eq_true] at h
    exact ⟨h.1.1, h.1.2, h.2⟩

theorem openStep_noRoots (node : Node) (st : PState) (h : noRoots node = true) :
    openStep node st = (st, st.curItem, false) := by
  obtain ⟨h1, h2, _⟩ := noRoots_parts node h
  simp [openStep, rootClassesOf, h1, h2]

theorem includeStep_noneCur (root : Node) (st : PState) (node : Node)
    (hcur : st.curItem = none) : includeStep root st node = node := by
  simp [includeStep, hcur]

theorem walkChildren_noRoots (f : PState → Node → Option PState)
    (hf : ∀ s n s2, f s n = some s2 → noRoots n = true → s.curItem = none →
        s2.items = s.items ∧ s2.curItem = none) :
    ∀ (l : NodeList) (st st2 : PState), walkChildren f st l = some st2 →
      noRootsList l = true → st.curItem = none →
      st2.items = st.items ∧ st2.curItem = none
  | .nil, st, st2, h, _, hcur => by
    simp only [walkChildren] at h
    cases h
    exact ⟨rfl, hcur⟩
  | .cons c rest, st, st2, h, hnr, hcur => by
    simp only [walkChildren] at h
    simp only [noRootsList, Bool.and_eq_true] at hnr
    cases hc : f st c with
    | none => rw [hc] at h; cases h
    | some st1 =>
      rw [hc] at h
      obtain ⟨hi1, hc1⟩ := hf _ _ _ hc hnr.1 hcur
      obtain ⟨hi2, hc2⟩ := walkChildren_noRoots f hf rest st1 st2 h hnr.2 hc1
      exact ⟨by rw [hi2, hi1], hc2⟩

theorem walkStep_noRoots (root : Node) (recur : PState → Node → Option PState)
    (hrec : ∀ s n s2, recur s n = some s2 → noRoots n = true → s.curItem = none →
        s2.items = s.items ∧ s2.curItem = none)
    (st : PState) (node : Node) (st2 : PState)
    (h : walkStep root recur st node = some st2)
    (hnr : noRoots node = true) (hcur : st.curItem = none) :
    st2.items = st.items ∧ st2.curItem = none := by
  simp only [walkStep] at h
  split at h
  · cases h; exact ⟨rfl, hcur⟩
  · rw [openStep_noRoots node st hnr] at h
    simp only at h
    rw [includeStep_noneCur root st node hcur] at h
    cases hbase : baseStep node st with
    | none => rw [hbase] at h; cases h
    | some stB =>
      rw [hbase] at h
      simp only at h
      obtain ⟨b, bf, hstB⟩ := baseStep_shape _ _ _ hbase
      cases hch : walkChildren recur (relStep node stB).1 node.children with
      | none => rw [hch] at h; cases h
      | some st4 =>
        rw [hch] at h
        simp only [closeStep_false] at h
        cases h
        have hcur3 : (relStep node stB).1.curItem = none := by
          rw [relStep_curItem, hstB]
          exact hcur
        have hitems3 : (relStep node stB).1.items = st.items := by
          rw [relStep_items, hstB]
        obtain ⟨hi4, hc4⟩ := walkChildren_noRoots recur hrec node.children _ _ hch
          (noRoots_parts node hnr).2.2 hcur3
        constructor
        · rw [(propStep_fields _ _ _ _ _).1, hi4, hitems3]
        · exact propStep_curNone _ _ _ _ _ hc4

theorem walk_noRoots (root : Node) :
    ∀ (fuel : Nat) (st : PState) (node : Node) (st2 : PState),
      walk root fuel st node = some st2 → noRoots node = true → st.curItem = none →
      st2.items = st.items ∧ st2.curItem = none := by
  intro fuel
  induction fuel with
  | zero =>
    intro st node st2 h _ hcur
    simp only [walk] at h
    cases h
    exact ⟨rfl, hcur⟩
  | succ n ih =>
    intro st node st2 h hnr hcur
    simp only [walk] at h
    exact walkStep_noRoots root (walk root n) (fun s nd s2 hh => ih s nd s2 hh)
      st node st2 h hnr hcur

/-! ## Claim C1 -/

/-- C1: the claim states that Parse and ParseNode never fail with a nil
base URL, and that a base element merely leaves resolution disabled.  The
code contradicts it: on a document containing a relative base href with no
base URL, the walker resolves through the nil base pointer (a Go runtime
panic, none in the embedding); with a base URL supplied, the same document
parses fine. -/
theorem c1_nil_base_with_base_element_panics :
    parseNode docRelativeBase none = none
      ∧ (parseNode docRelativeBase exBase).isSome = true := by
  exact ⟨by decide, by decide⟩

/-! ## Claim C2 -/

/-- C2: in every parse result each rel token maps to a duplicate-free URL
list, and a rel-urls record, once stored for a URL, is never replaced by a
later element: any walk step preserves existing rel-urls entries
unchanged. -/
theorem c2_rels_unique_and_relurls_first_wins :
    (∀ (doc : Node) (base : Option URL) (st : PState),
        parseNode doc base = some st → ∀ t, (relsLookup st.rels t).Nodup)
      ∧ (∀ (root : Node) (fuel : Nat) (st : PState) (node : Node) (st2 : PState)
          (u : String) (r : RelURL),
          walk root fuel st node = some st2 →
          relURLsLookup st.relURLs u = some r →
          relURLsLookup st2.relURLs u = some r) := by
  constructor
  · intro doc base st h t
    exact (parseNode_rel doc base st h).1 (initState_relsInv base) t
  · intro root fuel st node st2 u r h hu
    exact (walk_rel root fuel st node st2 h).2.1 u r hu

/-- Witness for C2 at a concrete document with duplicate rel links, and a
concrete walk step over a state that already holds a rel-urls record. -/
theorem c2_rels_unique_and_relurls_first_wins_witness :
    (relsLookup
      ({ items := [],
         rels := [("me", ["http://example.com/x"]), ("author", ["http://example.com/x"])],
         relURLs := [("http://example.com/x",
           { rels := ["me", "author"], text := "one", media := "", hreflang := "",
             title := "", rtype := "" })],
         curItem := none, base := exBase, baseFound := false } : PState).rels "me").Nodup
    ∧ relURLsLookup
        ({ items := [], rels := [],
           relURLs := [("u0",
             { rels := ["r"], text := "t", media := "", hreflang := "",
               title := "", rtype := "" })],
           curItem := none, base := none, baseFound := false } : PState).relURLs "u0"
        = some { rels := ["r"], text := "t", media := "", hreflang := "",
                 title := "", rtype := "" } := by
  refine ⟨c2_rels_unique_and_relurls_first_wins.1 docDupRels exBase _ (by decide) "me",
    c2_rels_unique_and_relurls_first_wins.2 docDupRels 2
      { items := [], rels := [],
        relURLs := [("u0",
          { rels := ["r"], text := "t", media := "", hreflang := "",
            title := "", rtype := "" })],
        curItem := none, base := none, baseFound := false }
      (textN "hi") _ "u0" _ (by decide) (by decide)⟩

/-! ## Claim C3 -/

/-- C3 counterexample: the claim states that a backcompat item's type list
preserves the generated order of its translated root classes, unsorted.
The code sorts every type list: the classes vevent adr generate
[h-event, h-adr], yet the parsed item carries [h-adr, h-event]. -/
theorem c3_backcompat_type_order_counterexample :
    getClasses docVeventAdr = ["vevent", "adr"]
      ∧ backcompatRootClasses ["vevent", "adr"] = ["h-event", "h-adr"]
      ∧ (parseNode docVeventAdr exBase).map (fun st => st.items.map Microformat.type)
          = some [["h-adr", "h-event"]]
      ∧ (["h-adr", "h-event"] : List String) ≠ ["h-event", "h-adr"] := by
  exact ⟨by decide, by decide, by decide, by decide⟩

/-- C3 as amended: every item of a parse result, including every nested
item, has a non-empty type list sorted lexicographically — for backcompat
items as well as v2 items, because the walker sorts unconditionally. -/
theorem c3_types_nonempty_sorted :
    ∀ (doc : Node) (base : Option URL) (st : PState),
      parseNode doc base = some st → itemsOK st.items = true := by
  intro doc base st h
  exact ((parseNode_rel doc base st h).2.2.1 (initState_stateOK base)).1

/-- Witness for C3 at the concrete backcompat document. -/
theorem c3_types_nonempty_sorted_witness :
    itemsOK
      ({ items := [Microformat.mk "" "" "" ["h-adr", "h-event"] PropMap.nil "" ""
            MFList.nil false false false false true],
         rels := [], relURLs := [], curItem := none, base := exBase,
         baseFound := false } : PState).items = true :=
  c3_types_nonempty_sorted docVeventAdr exBase _ (by decide)

/-! ## Claim C8 -/

/-- C8: the claim states that the generic fallback table supplies a
translation when no type-specific rule applies, so such a v1 class still
contributes a property.  The code defines the fallback table but never
consults it: the class title inside an h-entry context translates to
nothing, and the parsed hentry document carries no properties at all, even
though the fallback table maps title to p-title. -/
theorem c8_generic_fallback_never_consulted :
    backcompatPropertyClasses ["title"] [] ["h-entry"] = []
      ∧ lookupAssoc backcompatPropertyMap "title" = some "p-title"
      ∧ (parseNode docHentryTitle exBase).map
          (fun st => st.items.map (fun m => (m.type, m.properties)))
          = some [(["h-entry"], PropMap.nil)] := by
  exact ⟨by decide, by decide, by decide⟩

/-! ## Claim C9 -/

/-- C9: template subtrees contribute nothing: the walker returns the state
untouched on a template element (so nothing inside opens an item,
contributes a property, or records a rel), and text-content extraction of
a template element is empty, as for script and style. -/
theorem c9_template_not_walked :
    (∀ (root : Node) (fuel : Nat) (st : PState) (node : Node),
        isAtom node ["template"] = true → walk root fuel st node = some st)
      ∧ (∀ (imgFn : ImgFn) (node : Node), isAtom node ["template"] = true →
          getTextContent imgFn node = "")
      ∧ (∀ (imgFn : ImgFn) (node : Node),
          isAtom node ["script"] = true || isAtom node ["style"] = true →
          getTextContent imgFn node = "") := by
  refine ⟨?_, ?_, ?_⟩
  · intro root fuel st node h
    cases fuel with
    | zero => rfl
    | succ n => simp [walk, walkStep, h]
  · intro imgFn node h
    have ha : node.atomStr = "template" := by
      simp [isAtom] at h
      exact h.symm
    cases node with
    | mk t a d ats ch =>
      simp only [Node.atomStr] at ha
      subst ha
      simp [getTextContent, isAtom, Node.atomStr]
  · intro imgFn node h
    rcases Bool.or_eq_true_iff.mp h with h1 | h1
    all_goals (
      first
        | (have ha : node.atomStr = "script" := by simp [isAtom] at h1; exact h1.symm)
        | (have ha : node.atomStr = "style" := by simp [isAtom] at h1; exact h1.symm)
      cases node with
      | mk t a d ats ch =>
        simp only [Node.atomStr] at ha
        subst ha
        simp [getTextContent, isAtom, Node.atomStr])

/-- Witness for C9 at a concrete template element containing an item, a
property and a rel link. -/
theorem c9_template_not_walked_witness :
    isAtom docTemplate ["template"] = true
      ∧ walk docTemplate 3 (initState exBase) docTemplate = some (initState exBase)
      ∧ getTextContent ImgFn.noFn docTemplate = "" := by
  refine ⟨by decide, c9_template_not_walked.1 docTemplate 3 (initState exBase)
    docTemplate (by decide), c9_template_not_walked.2.1 ImgFn.noFn docTemplate (by decide)⟩

/-! ## Claim C10 -/

/-- C10: property classes with no enclosing item contribute nothing: a
walk of a tree bearing no root classes, entered with no current item,
leaves the item list and the current item untouched; in particular the
document whose only markup is a p-name property class parses to zero
items, while a document whose top-level node carries both a root class and
a property class parses to exactly one top-level item. -/
theorem c10_orphan_properties_dropped :
    (∀ (root : Node) (fuel : Nat) (st : PState) (node : Node) (st2 : PState),
        walk root fuel st node = some st2 → noRoots node = true →
        st.curItem = none → st2.items = st.items ∧ st2.curItem = none)
      ∧ (parseNode docOrphanProps exBase).map (fun st => st.items) = some []
      ∧ (parseNode docRootWithProp exBase).map (fun st => st.items.length) = some 1 := by
  refine ⟨walk_noRoots, by decide, by decide⟩

/-- Witness for C10 at the concrete orphan-property document. -/
theorem c10_orphan_properties_dropped_witness :
    (initState exBase).items = (initState exBase).items
      ∧ (initState exBase).curItem = none :=
  c10_orphan_properties_dropped.1 docOrphanProps 5 (initState exBase) docOrphanProps
    (initState exBase) (by decide) (by decide) (by decide)

/-! ## Property-map and flag preservation through the implied pass -/

theorem properties_withProperties (m : Microformat) (p : PropMap) :
    (m.withProperties p).properties = p := by cases m; rfl

theorem flags_withProperties (m : Microformat) (p : PropMap) :
    (m.withProperties p).bc = m.bc ∧ (m.withProperties p).hasNested = m.hasNested
      ∧ (m.withProperties p).hasP = m.hasP ∧ (m.withProperties p).hasE = m.hasE
      ∧ (m.withProperties p).hasU = m.hasU := by
  cases m; exact ⟨rfl, rfl, rfl, rfl, rfl⟩

theorem find?_setVals_ne : ∀ (m : PropMap) (k : String) (nv : PropValueList)
    (k2 : String), k ≠ k2 → (m.setVals k nv).find? k2 = m.find? k2
  | .nil, _, _, _, _ => rfl
  | .cons n vs rest, k, nv, k2, h => by
    by_cases hn : n = k
    · subst hn
      simp [PropMap.setVals, PropMap.find?, h]
    · simp [PropMap.setVals, PropMap.find?, hn, find?_setVals_ne rest k nv k2 h]

theorem find?_appendVal_ne : ∀ (m : PropMap) (k : String) (v : PropValue)
    (k2 : String), k ≠ k2 → (m.appendVal k v).find? k2 = m.find? k2
  | .nil, k, v, k2, h => by simp [PropMap.appendVal, PropMap.find?, h]
  | .cons n vs rest, k, v, k2, h => by
    by_cases hn : n = k
    · subst hn
      simp [PropMap.appendVal, PropMap.find?, h]
    · by_cases hn2 : n = k2
      · subst hn2
        simp [PropMap.appendVal, PropMap.find?, hn]
      · simp [PropMap.appendVal, PropMap.find?, hn, hn2,
          find?_appendVal_ne rest k v k2 h]

theorem find?_appendVal_new : ∀ (m : PropMap) (k : String) (v : PropValue),
    m.hasKey k = false →
    (m.appendVal k v).find? k = some (PropValueList.cons v PropValueList.nil)
  | .nil, k, v, _ => by simp [PropMap.appendVal, PropMap.find?]
  | .cons n vs rest, k, v, h => by
    by_cases hn : n = k
    · subst hn
      simp [PropMap.hasKey, PropMap.find?] at h
    · simp [PropMap.hasKey, PropMap.find?, hn] at h
      simp [PropMap.appendVal, PropMap.find?, hn]
      exact find?_appendVal_new rest k v (by simpa [PropMap.hasKey] using h)

theorem hasKey_of_find?_eq (m m2 : PropMap) (k : String)
    (h : m.find? k = m2.find? k) : m.hasKey k = m2.hasKey k := by
  simp [PropMap.hasKey, h]

theorem hasKey_false_find?_none (m : PropMap) (k : String)
    (h : m.hasKey k = false) : m.find? k = none := by
  simp [PropMap.hasKey] at h
  exact Option.not_isSome_iff_eq_none.mp (by simp [h])

theorem implyEndDate_shape (m : Microformat) :
    implyEndDate m = m
      ∨ ∃ nv, implyEndDate m = m.withProperties (m.properties.setVals "end" nv) := by
  unfold implyEndDate
  repeat' split
  · exact Or.inr ⟨_, rfl⟩
  · exact Or.inl rfl
  · exact Or.inl rfl

theorem implyEndDate_flags (m : Microformat) :
    (implyEndDate m).bc = m.bc ∧ (implyEndDate m).hasNested = m.hasNested
      ∧ (implyEndDate m).hasP = m.hasP ∧ (implyEndDate m).hasE = m.hasE
      ∧ (implyEndDate m).hasU = m.hasU := by
  rcases implyEndDate_shape m with h | ⟨nv, h⟩
  · rw [h]; exact ⟨rfl, rfl, rfl, rfl, rfl⟩
  · rw [h]; exact flags_withProperties m _

theorem implyEndDate_find?_ne (m : Microformat) (k : String) (hk : k ≠ "end") :
    (implyEndDate m).properties.find? k = m.properties.find? k := by
  rcases implyEndDate_shape m with h | ⟨nv, h⟩
  · rw [h]
  · rw [h, properties_withProperties]
    exact find?_setVals_ne _ "end" nv k (fun he => hk he.symm)

theorem impliedNameStep_gated (node : Node) (c : Microformat)
    (h : c.hasNested = true ∨ c.hasP = true ∨ c.hasE = true) :
    impliedNameStep node c = c := by
  unfold impliedNameStep
  rcases h with h | h | h <;> simp [h]

theorem impliedNameStep_find?_ne (node : Node) (c : Microformat) (k : String)
    (hk : k ≠ "name") :
    (impliedNameStep node c).properties.find? k = c.properties.find? k := by
  unfold impliedNameStep
  split
  · split
    · rw [properties_withProperties]
      exact find?_appendVal_ne _ "name" _ k (fun he => hk he.symm)
    · rfl
  · rfl

theorem impliedNameStep_flags (node : Node) (c : Microformat) :
    (impliedNameStep node c).bc = c.bc
      ∧ (impliedNameStep node c).hasNested = c.hasNested
      ∧ (impliedNameStep node c).hasP = c.hasP
      ∧ (impliedNameStep node c).hasE = c.hasE
      ∧ (impliedNameStep node c).hasU = c.hasU := by
  unfold impliedNameStep
  split
  · split
    · exact flags_withProperties c _
    · exact ⟨rfl, rfl, rfl, rfl, rfl⟩
  · exact ⟨rfl, rfl, rfl, rfl, rfl⟩

theorem impliedPhotoStep_find?_ne (node : Node) (base : Option URL)
    (c : Microformat) (k : String) (hk : k ≠ "photo") :
    (impliedPhotoStep node base c).properties.find? k = c.properties.find? k := by
  unfold impliedPhotoStep
  split
  · split
    · rw [properties_withProperties]
      exact find?_appendVal_ne _ "photo" _ k (fun he => hk he.symm)
    · split
      · rw [properties_withProperties]
        exact find?_appendVal_ne _ "photo" _ k (fun he => hk he.symm)
      · rfl
  · rfl

theorem impliedURLStep_find?_ne (node : Node) (base : Option URL)
    (c : Microformat) (k : String) (hk : k ≠ "url") :
    (impliedURLStep node base c).properties.find? k = c.properties.find? k := by
  unfold impliedURLStep
  split
  · split
    · rw [properties_withProperties]
      exact find?_appendVal_ne _ "url" _ k (fun he => hk he.symm)
    · rfl
  · rfl

theorem finalizeItem_find?_name_of_flag (node : Node) (base : Option URL)
    (ci : Microformat)
    (h : ci.hasNested = true ∨ ci.hasP = true ∨ ci.hasE = true) :
    (finalizeItem node base ci).properties.find? "name"
      = ci.properties.find? "name" := by
  unfold finalizeItem
  split
  · exact implyEndDate_find?_ne ci "name" (by decide)
  · have hflag : (implyEndDate ci).hasNested = true ∨ (implyEndDate ci).hasP = true
        ∨ (implyEndDate ci).hasE = true := by
      obtain ⟨_, h2, h3, h4, _⟩ := implyEndDate_flags ci
      rcases h with h | h | h
      · exact Or.inl (by rw [h2, h])
      · exact Or.inr (Or.inl (by rw [h3, h]))
      · exact Or.inr (Or.inr (by rw [h4, h]))
    rw [impliedURLStep_find?_ne _ _ _ _ (by decide),
      impliedPhotoStep_find?_ne _ _ _ _ (by decide),
      impliedNameStep_gated _ _ hflag]
    exact implyEndDate_find?_ne ci "name" (by decide)

theorem finalizeItem_find?_name_of_bc (node : Node) (base : Option URL)
    (ci : Microformat) (h : ci.bc = true) :
    (finalizeItem node base ci).properties.find? "name"
      = ci.properties.find? "name" := by
  unfold finalizeItem
  have hb : (implyEndDate ci).bc = true := by
    rw [(implyEndDate_flags ci).1, h]
  rw [if_pos hb]
  exact implyEndDate_find?_ne ci "name" (by decide)

/-- C4: the implied-name pass adds a name only to items that are not
backcompat and have no nested microformats, no p-* properties and no e-*
properties: an item closed with a p-* mark keeps its name entry unchanged,
any change to the name entry forces all four gates to be off, and the p-*
mark on the current item persists to the end of the walk. -/
theorem c4_implied_name_gating :
    (∀ (node : Node) (base : Option URL) (ci : Microformat), ci.hasP = true →
        (finalizeItem node base ci).properties.find? "name"
          = ci.properties.find? "name")
    ∧ (∀ (node : Node) (base : Option URL) (ci : Microformat),
        (finalizeItem node base ci).properties.find? "name"
            ≠ ci.properties.find? "name" →
        ci.bc = false ∧ ci.hasNested = false ∧ ci.hasP = false ∧ ci.hasE = false)
    ∧ (∀ (root : Node) (fuel : Nat) (st st2 : PState) (node : Node)
        (m : Microformat),
        walk root fuel st node = some st2 → st.curItem = some m →
        m.hasP = true → ∃ m2, st2.curItem = some m2 ∧ m2.hasP = true) := by
  refine ⟨?_, ?_, ?_⟩
  · intro node base ci h
    exact finalizeItem_find?_name_of_flag node base ci (Or.inr (Or.inl h))
  · intro node base ci h
    refine ⟨?_, ?_, ?_, ?_⟩
    · cases hv : ci.bc
      · rfl
      · exact absurd (finalizeItem_find?_name_of_bc node base ci hv) h
    · cases hv : ci.hasNested
      · rfl
      · exact absurd (finalizeItem_find?_name_of_flag node base ci (Or.inl hv)) h
    · cases hv : ci.hasP
      · rfl
      · exact absurd
          (finalizeItem_find?_name_of_flag node base ci (Or.inr (Or.inl hv))) h
    · cases hv : ci.hasE
      · rfl
      · exact absurd
          (finalizeItem_find?_name_of_flag node base ci (Or.inr (Or.inr hv))) h
  · intro root fuel st st2 node m hw hc hp
    exact (walk_rel root fuel st node st2 hw).2.2.2.2 m hc hp

theorem c4_implied_name_gating_witness :
    ((newItem ["h-entry"] false "").setHasP.hasP = true)
    ∧ (finalizeItem (textN "x") none
          (newItem ["h-entry"] false "").setHasP).properties.find? "name"
        = ((newItem ["h-entry"] false "").setHasP).properties.find? "name" :=
  ⟨by decide, c4_implied_name_gating.1 (textN "x") none _ (by decide)⟩

/-- The photo entry of the first parsed item, when there is one. -/
def firstItemPhoto (st : Option PState) : Option PropValueList :=
  match st with
  | some s =>
    match s.items with
    | m :: _ => m.properties.find? "photo"
    | [] => none
  | none => none

/-- C5 counterexample: an h-card on an img element carrying an alt
attribute but no src yields an implied photo property whose value is the
empty string, although no URL was drawn from any candidate, where the
specification promises that no photo property is added at all. -/
theorem c5_implied_photo_counterexample :
    (getImpliedPhoto docImgAltNoSrc none).1 = ""
    ∧ firstItemPhoto (parseNode docImgAltNoSrc none)
        = some (PropValueList.cons
            (PropValue.obj [("alt", "x"), ("value", "")]) PropValueList.nil) := by
  decide

theorem impliedPhotoStep_find?_photo (node : Node) (base : Option URL)
    (c : Microformat) (hkey : c.properties.hasKey "photo" = false)
    (hn : c.hasNested = false) (hu : c.hasU = false) :
    (impliedPhotoStep node base c).properties.find? "photo"
      = (if (getImpliedPhoto node base).2 ≠ "" then
           some (PropValueList.cons (PropValue.obj
             [("alt", (getImpliedPhoto node base).2),
              ("value", (getImpliedPhoto node base).1)]) PropValueList.nil)
         else if (getImpliedPhoto node base).1 ≠ "" then
           some (PropValueList.cons
             (PropValue.str (getImpliedPhoto node base).1) PropValueList.nil)
         else none) := by
  unfold impliedPhotoStep
  rw [if_pos (by simp [hkey, hn, hu])]
  split
  · rw [properties_withProperties]
    exact find?_appendVal_new _ "photo" _ hkey
  · split
    · rw [properties_withProperties]
      exact find?_appendVal_new _ "photo" _ hkey
    · exact hasKey_false_find?_none _ _ hkey

/-- C5 (amended): for an item eligible for the implied-photo pass (no
explicit photo, no nested items, no u-* properties, not backcompat), the
photo entry after the close pass is a \x7balt, value\x7d object whenever the
captured alt text is non-empty — even when no URL was found, in which case
the value member is the empty string — a plain string when the alt text is
empty and a URL was found, and absent only when both are empty. -/
theorem c5_implied_photo_amended
    (node : Node) (base : Option URL) (ci : Microformat)
    (hbc : ci.bc = false) (hkey : ci.properties.hasKey "photo" = false)
    (hn : ci.hasNested = false) (hu : ci.hasU = false) :
    (finalizeItem node base ci).properties.find? "photo"
      = (if (getImpliedPhoto node base).2 ≠ "" then
           some (PropValueList.cons (PropValue.obj
             [("alt", (getImpliedPhoto node base).2),
              ("value", (getImpliedPhoto node base).1)]) PropValueList.nil)
         else if (getImpliedPhoto node base).1 ≠ "" then
           some (PropValueList.cons
             (PropValue.str (getImpliedPhoto node base).1) PropValueList.nil)
         else none) := by
  unfold finalizeItem
  rw [if_neg (by rw [(implyEndDate_flags ci).1, hbc]; exact Bool.false_ne_true)]
  rw [impliedURLStep_find?_ne _ _ _ _ (by decide)]
  have hfind : (impliedNameStep node (implyEndDate ci)).properties.find? "photo"
      = ci.properties.find? "photo" := by
    rw [impliedNameStep_find?_ne _ _ _ (by decide)]
    exact implyEndDate_find?_ne ci "photo" (by decide)
  apply impliedPhotoStep_find?_photo
  · rw [hasKey_of_find?_eq _ ci.properties "photo" hfind]
    exact hkey
  · rw [(impliedNameStep_flags node _).2.1, (implyEndDate_flags ci).2.1]
    exact hn
  · rw [(impliedNameStep_flags node _).2.2.2.2, (implyEndDate_flags ci).2.2.2.2]
    exact hu

theorem c5_implied_photo_amended_witness :
    (newItem ["h-card"] false "").bc = false
    ∧ (newItem ["h-card"] false "").properties.hasKey "photo" = false
    ∧ (finalizeItem docImgAltNoSrc none
          (newItem ["h-card"] false "")).properties.find? "photo"
        = some (PropValueList.cons
            (PropValue.obj [("alt", "x"), ("value", "")]) PropValueList.nil) := by
  refine ⟨by decide, by decide, ?_⟩
  rw [c5_implied_photo_amended docImgAltNoSrc none _ (by decide) (by decide)
    (by decide) (by decide)]
  decide

theorem extractU_head (node : Node) (altOK : Bool) :
    (match (if isAtom node ["a", "area", "link"] then getAttrPtr node "href"
        else none : Option String) with
      | some v => (some v, ([] : List (String × String)))
      | none =>
        if isAtom node ["img"] then
          (getAttrPtr node "src",
           if altOK then
             (if imageAltValue node ≠ "" then [("alt", imageAltValue node)] else [])
           else [])
        else (none, [])).1
      = ((if isAtom node ["a", "area", "link"] then getAttrPtr node "href" else none)
         <|> (if isAtom node ["img"] then getAttrPtr node "src" else none)) := by
  cases (if isAtom node ["a", "area", "link"] then getAttrPtr node "href"
      else none : Option String) with
  | some v => rfl
  | none =>
    split
    · rename_i v heq
      exact absurd heq (by simp)
    · by_cases hI : isAtom node ["img"] = true <;> simp [hI]

theorem extractU_eq_spec (node : Node) (base : Option URL) (altOK : Bool) :
    (extractU node base altOK).1
      = trimSpace (expandURL
          ((uCandidateSpec node).getD (trimSpace (getTextContent ImgFn.noFn node)))
          base) := by
  simp only [extractU, uCandidateSpec]
  rw [extractU_head node altOK]
  generalize (if isAtom node ["a", "area", "link"] then getAttrPtr node "href"
    else none : Option String) = a
  generalize (if isAtom node ["img"] then getAttrPtr node "src"
    else none : Option String) = b
  generalize (if isAtom node ["audio", "video", "source"] then getAttrPtr node "src"
    else none : Option String) = c3
  generalize (if isAtom node ["object"] then getAttrPtr node "data"
    else none : Option String) = c4
  generalize (if isAtom node ["video"] then getAttrPtr node "poster"
    else none : Option String) = c5
  generalize getValueClassPattern node = c6
  generalize (if isAtom node ["abbr"] then getAttrPtr node "title"
    else none : Option String) = c7
  generalize (if isAtom node ["data", "input"] then getAttrPtr node "value"
    else none : Option String) = c8
  cases a <;> cases b <;> cases c3 <;> cases c4 <;> cases c5 <;> cases c6 <;>
    cases c7 <;> cases c8 <;> rfl

/-- C6: the u-* extractor tries the candidates in the specified fixed
order — href on a/area/link, src on img, src on audio/video/source, data
on object, poster on video, value-class pattern, abbr title, data/input
value, and finally the trimmed text content — using the first candidate
that yields a value, then resolves against the base URL and trims; in
particular on an a/area/link element with an href attribute the href
always wins over the text content. -/
theorem c6_u_candidate_order :
    (∀ (node : Node) (base : Option URL) (altOK : Bool),
        (extractU node base altOK).1
          = trimSpace (expandURL
              ((uCandidateSpec node).getD
                (trimSpace (getTextContent ImgFn.noFn node))) base))
    ∧ (∀ (node : Node) (base : Option URL) (altOK : Bool) (h : String),
        isAtom node ["a", "area", "link"] = true →
        getAttrPtr node "href" = some h →
        (extractU node base altOK).1 = trimSpace (expandURL h base)) := by
  refine ⟨extractU_eq_spec, ?_⟩
  intro node base altOK h hAtom hHref
  rw [extractU_eq_spec]
  have hc : uCandidateSpec node = some h := by
    unfold uCandidateSpec
    rw [if_pos hAtom, hHref]
    simp
  rw [hc, Option.getD_some]

theorem c6_u_candidate_order_witness :
    (isAtom (elemN "a" [("href", "u")] [textN "T"]) ["a", "area", "link"] = true)
    ∧ getAttrPtr (elemN "a" [("href", "u")] [textN "T"]) "href" = some "u"
    ∧ (extractU (elemN "a" [("href", "u")] [textN "T"]) none false).1
        = trimSpace (expandURL "u" none) := by
  refine ⟨by decide, by decide, ?_⟩
  exact c6_u_candidate_order.2 _ none false "u" (by decide) (by decide)

theorem urlAttrsFor_all_spec (n : Node) :
    (urlAttrsFor n).all (fun a => specURLAttrs.contains a) = true := by
  unfold urlAttrsFor
  repeat' split
  all_goals decide

/-- C7: an e-* property class on a node that does not itself open an item
emits a structured object whose html member is the serialisation of the
node's children after URL-bearing attributes are rewritten against the
base, trimmed, with self-closing markers normalised and the apostrophe
entity decoded, and whose value member is the trimmed text content with
images replaced by their alt or space-wrapped resolved src; the attributes
rewritten are among href, src, data, cite, formaction, action, ping and
poster. -/
theorem c7_e_property_emission :
    (∀ (node : Node) (base : Option URL) (enc : Microformat) (name : String),
        processProp node base none (some enc) ("e-" ++ name)
          = some (enc.setHasE.withProperties
              (enc.setHasE.properties.appendVal name
                (PropValue.obj [("html", (extractE node base).2),
                  ("value", (extractE node base).1)]))))
    ∧ (∀ (node : Node) (base : Option URL),
        (extractE node base).1
            = trimSpace (getTextContent (ImgFn.altSrcValue base) node)
          ∧ (extractE node base).2
            = replaceAll (replaceAll
                (trimSpace (renderList (expandAttrURLsList base node.children)))
                "/>" ">") "&#39;" "\x27")
    ∧ (∀ (n : Node) (a : String), a ∈ urlAttrsFor n → a ∈ specURLAttrs)
    ∧ (∀ (base : Option URL) (n : Node) (v : String),
        getAttrPtr n "alt" = some v →
          imgFnApply (ImgFn.altSrcValue base) n = v)
    ∧ (∀ (base : Option URL) (n : Node) (v : String),
        getAttrPtr n "alt" = none → getAttrPtr n "src" = some v →
          imgFnApply (ImgFn.altSrcValue base) n
            = " " ++ expandURL v base ++ " ") := by
  refine ⟨fun _ _ _ _ => rfl, fun _ _ => ⟨rfl, rfl⟩, ?_, ?_, ?_⟩
  · intro n a h
    have hb := List.all_eq_true.mp (urlAttrsFor_all_spec n) a h
    exact List.mem_of_elem_eq_true (by simpa [List.contains] using hb)
  · intro base n v h
    simp [imgFnApply, h]
  · intro base n v h1 h2
    simp [imgFnApply, h1, h2]

theorem c7_e_property_emission_witness :
    ("href" ∈ urlAttrsFor (elemN "a" [("href", "x")] []))
    ∧ "href" ∈ specURLAttrs
    ∧ processProp (elemN "div" [] [textN "B"]) none none
          (some (newItem ["h-entry"] false "")) ("e-" ++ "content")
        = some ((newItem ["h-entry"] false "").setHasE.withProperties
            ((newItem ["h-entry"] false "").setHasE.properties.appendVal "content"
              (PropValue.obj
                [("html", (extractE (elemN "div" [] [textN "B"]) none).2),
                 ("value", (extractE (elemN "div" [] [textN "B"]) none).1)]))) := by
  refine ⟨by decide, ?_, ?_⟩
  · exact c7_e_property_emission.2.2.1 (elemN "a" [("href", "x")] []) "href"
      (by decide)
  · exact c7_e_property_emission.1 (elemN "div" [] [textN "B"]) none _ "content"

end MF2
